import Mathlib

/-!
Verification development for the tiktoken-style BPE tokenizer
(`src/tiktoken.rs`, `src/lib.rs`).

Bytes are modelled as `List Nat` (Rust `&[u8]` / `Vec<u8>`; byte values are
below 256 wherever hypotheses state so).  Ranks are modelled as `Nat`
(Rust `u32`); the sentinel `u32::MAX` used by `_byte_pair_merge` is the
constant `RANK_MAX`.  Rust `HashMap`s are modelled as association lists
looked up with `List.lookup` (a `HashMap` has unique keys; theorems that
depend on key uniqueness take it as a hypothesis).  Rust panics
(`HashMap` indexing on an absent key, `assert!`) are modelled by `Option`
resp. a dedicated result constructor: `none` means the Rust code panics.

The two compiled regexes of `CoreBPE` (`regex` for segmentation,
`special_regex` for special-token search) live in the external
`fancy_regex` crate, so they are modelled as function parameters:
`split : Bytes → List Bytes` stands for `regex.find_iter` (the list of
matched pieces of the given text, in order) and
`findSpecial : Bytes → Nat → Option (Nat × Nat)` stands for
`special_regex.find_from_pos` (start/end byte offsets of the next match).
Properties of these functions that the real regexes guarantee are taken
as explicit hypotheses where a theorem needs them.
-/

namespace Tok

abbrev Bytes := List Nat

abbrev RankTable := List (Bytes × Nat)

/-- `u32::MAX`, the sentinel "unranked" value of `_byte_pair_merge`. -/
def RANK_MAX : Nat := 4294967295

/-- Rust `&piece[a..b]`. -/
def slice (piece : Bytes) (a b : Nat) : Bytes := (piece.drop a).take (b - a)

/-- The `parts` vector of `_byte_pair_merge`: a list of `(start, rank)`. -/
abbrev Parts := List (Nat × Nat)

/-- `parts[i].0` (the starts are always read in bounds by the source). -/
def partStart (parts : Parts) (i : Nat) : Nat := ((parts[i]?).getD (0, 0)).1

/-- The `get_rank!` macro of `_byte_pair_merge`:
`if (start_idx + skip + 2) < parts.len() { ranks.get(&piece[parts[start_idx].0..parts[start_idx+skip+2].0]) } else { None }`. -/
def getRankAt (piece : Bytes) (ranks : RankTable) (parts : Parts) (startIdx skip : Nat) :
    Option Nat :=
  if startIdx + skip + 2 < parts.length then
    ranks.lookup (slice piece (partStart parts startIdx) (partStart parts (startIdx + skip + 2)))
  else none

/-- `(0..piece.len() as u32 + 1).map(|i| (i, u32::MAX)).collect()`. -/
def initParts (piece : Bytes) : Parts :=
  (List.range (piece.length + 1)).map (fun i => (i, RANK_MAX))

/-- Helper for the initial rank-filling loop (indexed traversal; `parts0` is
the vector the `get_rank!` lookups read their starts from, which the loop
never modifies). -/
def fillGo (piece : Bytes) (ranks : RankTable) (parts0 : Parts) : Nat → Parts → Parts
  | _, [] => []
  | i, p :: rest =>
    (match getRankAt piece ranks parts0 i 0 with
      | some r => (p.1, r)
      | none => p) :: fillGo piece ranks parts0 (i + 1) rest

/-- The initial rank-filling loop of `_byte_pair_merge`:
`for i in 0..parts.len() - 2 { match get_rank!(i) { Some(rank) => parts[i].1 = rank, None => continue } }`.
(`get_rank!(i)` itself checks `i + 2 < parts.len()`, which is the same
bound as the loop's, so the guard is expressed once, inside `getRankAt`.) -/
def fillRanks (piece : Bytes) (ranks : RankTable) (parts : Parts) : Parts :=
  fillGo piece ranks parts 0 parts

/-- The minimum scan of the merge loop:
`let mut min_rank = (u32::MAX, 0); for (i, &(_, rank)) in parts[..parts.len()-1].iter().enumerate() { if rank < min_rank.0 { min_rank = (rank, i) } }`.
The accumulator is `(rank, index)` and is replaced only on a strictly
smaller rank. -/
def minRankFold : Parts → Nat → Nat × Nat → Nat × Nat
  | [], _, acc => acc
  | p :: rest, i, acc => minRankFold rest (i + 1) (if p.2 < acc.1 then (p.2, i) else acc)

/-- The two rank updates performed before `parts.remove(i + 1)`:
`parts[i].1 = get_rank!(i, 1).unwrap_or(u32::MAX); if i > 0 { parts[i-1].1 = get_rank!(i-1, 1).unwrap_or(u32::MAX) }`. -/
def mergeUpdated (piece : Bytes) (ranks : RankTable) (parts : Parts) (i : Nat) : Parts :=
  let parts1 := parts.set i (partStart parts i, (getRankAt piece ranks parts i 1).getD RANK_MAX)
  if 0 < i then
    parts1.set (i - 1)
      (partStart parts1 (i - 1), (getRankAt piece ranks parts1 (i - 1) 1).getD RANK_MAX)
  else parts1

/-- One iteration of the merge loop's body after the scan: if a finite
minimum rank exists at index `i`, update `parts[i].1` (and `parts[i-1].1`
when `i > 0`) with a skip-1 `get_rank!`, then `parts.remove(i + 1)`.
Returns `none` when no pair has a finite rank (the loop breaks). -/
def mergeOnce (piece : Bytes) (ranks : RankTable) (parts : Parts) : Option Parts :=
  let m := minRankFold parts.dropLast 0 (RANK_MAX, 0)
  if m.1 ≠ RANK_MAX then some ((mergeUpdated piece ranks parts m.2).eraseIdx (m.2 + 1))
  else none

/-- The merge loop of `_byte_pair_merge`, with explicit fuel.  The Rust
`loop` breaks when `parts.len() == 1` or when no pair carries a finite
rank; each continuing iteration removes exactly one part, so fuel
`parts.length` (supplied by `mergeLoop`) can never run out before a
break. -/
def mergeLoopGo (piece : Bytes) (ranks : RankTable) : Nat → Parts → Parts
  | 0, parts => parts
  | fuel + 1, parts =>
    if parts.length = 1 then parts
    else
      match mergeOnce piece ranks parts with
      | some parts' => mergeLoopGo piece ranks fuel parts'
      | none => parts

def mergeLoop (piece : Bytes) (ranks : RankTable) (parts : Parts) : Parts :=
  mergeLoopGo piece ranks parts.length parts

/-- The output loop of `_byte_pair_merge`:
`for i in 0..parts.len() - 1 { out.push(f(parts[i].0..parts[i + 1].0)) }`,
with `f` kept as the identity on ranges (start, end). -/
def partsRanges (parts : Parts) : List (Nat × Nat) :=
  (parts.zip parts.tail).map (fun pq => (pq.1.1, pq.2.1))

/-- `_byte_pair_merge(piece, ranks, f)` with `f` returning the byte range
itself: the list of byte ranges of the final parts. -/
def bytePairMergeRanges (piece : Bytes) (ranks : RankTable) : List (Nat × Nat) :=
  partsRanges (mergeLoop piece ranks (fillRanks piece ranks (initParts piece)))

/-- `byte_pair_encode`:
`if piece.len() == 1 { return vec![ranks[piece]] } _byte_pair_merge(piece, ranks, |p| ranks[&piece[p.start..p.end]])`.
`none` models the panic of indexing `ranks` with an absent key. -/
def byte_pair_encode (piece : Bytes) (ranks : RankTable) : Option (List Nat) :=
  if piece.length = 1 then (ranks.lookup piece).map (fun r => [r])
  else (bytePairMergeRanges piece ranks).mapM (fun p => ranks.lookup (slice piece p.1 p.2))

/-- Full characterization of the minimum scan: either it returns the
accumulator unchanged and no scanned rank is strictly below the
accumulator's rank, or it returns the rank and (absolute) index of the
first scanned entry attaining the strict minimum below the accumulator. -/
theorem minRankFold_spec (l : Parts) : ∀ (i : Nat) (acc : Nat × Nat),
    (minRankFold l i acc = acc ∧
      ∀ (j : Nat) (pj : Nat × Nat), l[j]? = some pj → acc.1 ≤ pj.2) ∨
    (∃ (j : Nat) (pj : Nat × Nat), l[j]? = some pj ∧ (minRankFold l i acc).2 = i + j ∧
      pj.2 = (minRankFold l i acc).1 ∧ (minRankFold l i acc).1 < acc.1 ∧
      (∀ (k : Nat) (pk : Nat × Nat), k < j → l[k]? = some pk → (minRankFold l i acc).1 < pk.2) ∧
      (∀ (k : Nat) (pk : Nat × Nat), l[k]? = some pk → (minRankFold l i acc).1 ≤ pk.2)) := by
  induction l with
  | nil =>
    intro i acc
    left
    exact ⟨rfl, by intro j pj h; simp at h⟩
  | cons p rest ih =>
    intro i acc
    simp only [minRankFold]
    by_cases hlt : p.2 < acc.1
    · rw [if_pos hlt]
      rcases ih (i + 1) (p.2, i) with ⟨heq, hall⟩ | ⟨j, pj, hj, hidx, hrank, hlt', hfirst, hall⟩
      · right
        refine ⟨0, p, by simp, by rw [heq]; simp, by rw [heq], by rw [heq]; exact hlt, ?_, ?_⟩
        · intro k pk hk _; omega
        · intro k pk hk
          cases k with
          | zero =>
            simp only [List.getElem?_cons_zero, Option.some.injEq] at hk
            subst hk
            rw [heq]
          | succ k' =>
            rw [List.getElem?_cons_succ] at hk
            rw [heq]
            exact hall k' pk hk
      · right
        refine ⟨j + 1, pj, by rwa [List.getElem?_cons_succ], by omega, hrank, by omega, ?_, ?_⟩
        · intro k pk hk hpk
          cases k with
          | zero =>
            simp at hpk
            subst hpk
            omega
          | succ k' =>
            rw [List.getElem?_cons_succ] at hpk
            exact hfirst k' pk (by omega) hpk
        · intro k pk hk
          cases k with
          | zero => simp at hk; subst hk; omega
          | succ k' =>
            rw [List.getElem?_cons_succ] at hk
            exact hall k' pk hk
    · rw [if_neg hlt]
      rcases ih (i + 1) acc with ⟨heq, hall⟩ | ⟨j, pj, hj, hidx, hrank, hlt', hfirst, hall⟩
      · left
        refine ⟨heq, ?_⟩
        intro k pk hk
        cases k with
        | zero => simp at hk; subst hk; omega
        | succ k' =>
          rw [List.getElem?_cons_succ] at hk
          exact hall k' pk hk
      · right
        refine ⟨j + 1, pj, by rwa [List.getElem?_cons_succ], by omega, hrank, hlt', ?_, ?_⟩
        · intro k pk hk hpk
          cases k with
          | zero => simp at hpk; subst hpk; omega
          | succ k' =>
            rw [List.getElem?_cons_succ] at hpk
            exact hfirst k' pk (by omega) hpk
        · intro k pk hk
          cases k with
          | zero => simp at hk; subst hk; omega
          | succ k' =>
            rw [List.getElem?_cons_succ] at hk
            exact hall k' pk hk

theorem getElem?_dropLast (l : List α) (j : Nat) (hj : j + 1 < l.length) :
    l.dropLast[j]? = l[j]? := by
  rw [List.dropLast_eq_take, List.getElem?_take, if_pos (by omega)]

/-- C2: In every iteration of the merge loop, the scan
(`for (i, &(_, rank)) in parts[..parts.len() - 1].iter().enumerate()`)
selects the adjacent pair with the globally smallest finite rank among all
parts except the last; on equal ranks the lowest index wins, because the
accumulator is replaced only on a strictly smaller rank (every part at an
index below the selected one has a strictly larger rank than the
minimum). -/
theorem C2_merge_selects_min (parts : Parts) (r i : Nat)
    (hm : minRankFold parts.dropLast 0 (RANK_MAX, 0) = (r, i))
    (hr : r ≠ RANK_MAX) :
    i + 1 < parts.length ∧
    (∃ pm : Nat × Nat, parts[i]? = some pm ∧ pm.2 = r) ∧
    (∀ (j : Nat) (pj : Nat × Nat), j + 1 < parts.length → parts[j]? = some pj → r ≤ pj.2) ∧
    (∀ (j : Nat) (pj : Nat × Nat), j < i → parts[j]? = some pj → r < pj.2) := by
  rcases minRankFold_spec parts.dropLast 0 (RANK_MAX, 0) with
    ⟨heq, _⟩ | ⟨j, pj, hj, hidx, hrank, _, hfirst, hall⟩
  · rw [hm] at heq
    exact absurd (congrArg Prod.fst heq) hr
  · rw [hm] at hidx hrank hfirst hall
    simp only at hidx hrank hfirst hall
    have hjlen : j < parts.dropLast.length := by
      rcases List.getElem?_eq_some.mp hj with ⟨h, _⟩
      exact h
    rw [List.length_dropLast] at hjlen
    have hjlt : j + 1 < parts.length := by omega
    have hij : i = j := by omega
    subst hij
    refine ⟨hjlt, ⟨pj, ?_, hrank⟩, ?_, ?_⟩
    · rw [← getElem?_dropLast parts i hjlt]
      exact hj
    · intro k pk hk hpk
      exact hall k pk (by rw [getElem?_dropLast parts k hk]; exact hpk)
    · intro k pk hk hpk
      have hklt : k + 1 < parts.length := by omega
      exact hfirst k pk hk (by rw [getElem?_dropLast parts k hklt]; exact hpk)

/-- Witness for C2 at the concrete parts list
`[(0,5), (1,3), (2,3), (3, RANK_MAX)]`: the scan returns rank 3 at index 1
(the leftmost of the two rank-3 pairs). -/
theorem C2_witness :
    (1 : Nat) + 1 < ([(0, 5), (1, 3), (2, 3), (3, RANK_MAX)] : Parts).length :=
  (C2_merge_selects_min [(0, 5), (1, 3), (2, 3), (3, RANK_MAX)] 3 1 (by decide) (by decide)).1

/-- Shared consequence of `minRankFold_spec` for the merge loop: when the
scan finds a finite minimum, it sits at an index whose part is not the
last one, the part's stored rank is the minimum, the minimum is a lower
bound on every non-last rank, and every earlier rank is strictly
larger. -/
theorem mergeScan_spec (parts : Parts)
    (hne : (minRankFold parts.dropLast 0 (RANK_MAX, 0)).1 ≠ RANK_MAX) :
    (minRankFold parts.dropLast 0 (RANK_MAX, 0)).2 + 1 < parts.length ∧
    (∃ pm : Nat × Nat, parts[(minRankFold parts.dropLast 0 (RANK_MAX, 0)).2]? = some pm ∧
      pm.2 = (minRankFold parts.dropLast 0 (RANK_MAX, 0)).1) ∧
    (∀ (j : Nat) (pj : Nat × Nat), j + 1 < parts.length → parts[j]? = some pj →
      (minRankFold parts.dropLast 0 (RANK_MAX, 0)).1 ≤ pj.2) := by
  rcases minRankFold_spec parts.dropLast 0 (RANK_MAX, 0) with
    ⟨heq, _⟩ | ⟨j, pj, hj, hidx, hrank, _, _, hall⟩
  · rw [heq] at hne
    exact absurd rfl hne
  · have hjlen : j < parts.dropLast.length := by
      rcases List.getElem?_eq_some.mp hj with ⟨h, _⟩
      exact h
    rw [List.length_dropLast] at hjlen
    have hjlt : j + 1 < parts.length := by omega
    refine ⟨by omega, ⟨pj, ?_, hrank⟩, ?_⟩
    · rw [hidx]
      simpa using (getElem?_dropLast parts j hjlt ▸ hj)
    · intro k pk hk hpk
      exact hall k pk (by rw [getElem?_dropLast parts k hk]; exact hpk)

theorem length_mergeUpdated (piece : Bytes) (ranks : RankTable) (parts : Parts) (i : Nat) :
    (mergeUpdated piece ranks parts i).length = parts.length := by
  unfold mergeUpdated
  split <;> simp

theorem mergeOnce_eq_some {piece : Bytes} {ranks : RankTable} {parts parts' : Parts}
    (h : mergeOnce piece ranks parts = some parts') :
    (minRankFold parts.dropLast 0 (RANK_MAX, 0)).1 ≠ RANK_MAX ∧
    parts' = (mergeUpdated piece ranks parts (minRankFold parts.dropLast 0 (RANK_MAX, 0)).2).eraseIdx
      ((minRankFold parts.dropLast 0 (RANK_MAX, 0)).2 + 1) := by
  simp only [mergeOnce] at h
  split at h
  · exact ⟨by assumption, by injection h with h; exact h.symm⟩
  · exact absurd h (by simp)

theorem mergeOnce_length {piece : Bytes} {ranks : RankTable} {parts parts' : Parts}
    (h : mergeOnce piece ranks parts = some parts') :
    parts'.length + 1 = parts.length := by
  rcases mergeOnce_eq_some h with ⟨hne, heq⟩
  have hlt := (mergeScan_spec parts hne).1
  rw [heq, List.length_eraseIdx, length_mergeUpdated, if_pos (by omega)]
  omega

theorem mergeOnce_nil (piece : Bytes) (ranks : RankTable) :
    mergeOnce piece ranks [] = none := by
  simp [mergeOnce, minRankFold, RANK_MAX]

/-- The merge loop's result is independent of the fuel once the fuel is at
least the part count: the loop genuinely terminates within that many
iterations. -/
theorem mergeLoopGo_fuel (piece : Bytes) (ranks : RankTable) :
    ∀ (fuel extra : Nat) (parts : Parts), parts.length ≤ fuel →
      mergeLoopGo piece ranks fuel parts = mergeLoopGo piece ranks (fuel + extra) parts := by
  intro fuel
  induction fuel with
  | zero =>
    intro extra parts hlen
    have hnil : parts = [] := List.length_eq_zero.mp (by omega)
    subst hnil
    cases extra with
    | zero => rfl
    | succ e =>
      show _ = mergeLoopGo piece ranks (e + 1) []
      simp [mergeLoopGo, mergeOnce_nil]
  | succ f ih =>
    intro extra parts hlen
    rw [Nat.add_right_comm f 1 extra]
    show mergeLoopGo piece ranks (f + 1) parts = mergeLoopGo piece ranks ((f + extra) + 1) parts
    simp only [mergeLoopGo]
    split
    · rfl
    · cases hmo : mergeOnce piece ranks parts with
      | none => rfl
      | some parts' =>
        have := mergeOnce_length hmo
        exact ih extra parts' (by omega)

theorem mergeLoopGo_length (piece : Bytes) (ranks : RankTable) :
    ∀ (fuel : Nat) (parts : Parts), (mergeLoopGo piece ranks fuel parts).length ≤ parts.length := by
  intro fuel
  induction fuel with
  | zero => intro parts; exact le_refl _
  | succ f ih =>
    intro parts
    simp only [mergeLoopGo]
    split
    · exact le_refl _
    · cases hmo : mergeOnce piece ranks parts with
      | none => exact le_refl _
      | some parts' =>
        have h1 := mergeOnce_length hmo
        have h2 := ih parts'
        show (mergeLoopGo piece ranks f parts').length ≤ parts.length
        omega

theorem length_partsRanges (parts : Parts) :
    (partsRanges parts).length = parts.length - 1 := by
  simp only [partsRanges, List.length_map, List.length_zip, List.length_tail]
  omega

theorem mapM_some_length {α β : Type} {f : α → Option β} :
    ∀ {xs : List α} {ys : List β}, xs.mapM f = some ys → ys.length = xs.length := by
  intro xs
  induction xs with
  | nil =>
    intro ys h
    rw [List.mapM_nil] at h
    simp only [Option.pure_def, Option.some.injEq] at h
    rw [← h]
    rfl
  | cons x xs ih =>
    intro ys h
    rw [List.mapM_cons] at h
    cases hx : f x with
    | none => rw [hx] at h; simp at h
    | some b =>
      rw [hx] at h
      cases hxs : xs.mapM f with
      | none => rw [hxs] at h; simp at h
      | some bs =>
        rw [hxs] at h
        simp at h
        rw [← h]
        simp [ih hxs]

/-- C7: every successful merge iteration (`mergeOnce` returning `some`)
shrinks the part count by exactly one; the loop terminates — its result is
stable once the fuel reaches the part count, and `mergeLoop` supplies
exactly that fuel; and the rank sequence produced by `byte_pair_encode`
is never longer than the input piece. -/
theorem C7_merge_monotonicity (piece : Bytes) (ranks : RankTable) :
    (∀ (parts parts' : Parts), mergeOnce piece ranks parts = some parts' →
      parts'.length + 1 = parts.length) ∧
    (∀ (extra : Nat) (parts : Parts),
      mergeLoop piece ranks parts = mergeLoopGo piece ranks (parts.length + extra) parts) ∧
    (∀ out : List Nat, byte_pair_encode piece ranks = some out → out.length ≤ piece.length) := by
  refine ⟨fun _ _ h => mergeOnce_length h, ?_, ?_⟩
  · intro extra parts
    exact mergeLoopGo_fuel piece ranks parts.length extra parts (le_refl _)
  · intro out hout
    unfold byte_pair_encode at hout
    split at hout
    · cases hr : List.lookup piece ranks with
      | none => rw [hr] at hout; simp at hout
      | some r =>
        rw [hr] at hout
        simp at hout
        rw [← hout]
        simp only [List.length_cons, List.length_nil]
        omega
    · have hlen := mapM_some_length hout
      rw [hlen]
      unfold bytePairMergeRanges
      rw [length_partsRanges]
      unfold mergeLoop
      have h1 := mergeLoopGo_length piece ranks
        (fillRanks piece ranks (initParts piece)).length (fillRanks piece ranks (initParts piece))
      have h2 : (fillRanks piece ranks (initParts piece)).length = piece.length + 1 := by
        unfold fillRanks
        have hfill : ∀ (parts0 : Parts) (i : Nat) (l : Parts),
            (fillGo piece ranks parts0 i l).length = l.length := by
          intro parts0 i l
          induction l generalizing i with
          | nil => rfl
          | cons p rest ihl => simp [fillGo, ihl]
        rw [hfill]
        simp [initParts]
      omega

/-- Witness for C7: on piece `abc` with a table ranking `a,b,c,ab,bc,abc`,
`byte_pair_encode` returns one token, which is no longer than the
3-byte piece. -/
theorem C7_witness :
    ([20] : List Nat).length ≤ ([97, 98, 99] : Bytes).length :=
  (C7_merge_monotonicity [97, 98, 99]
      [([97], 0), ([98], 1), ([99], 2), ([97, 98], 10), ([98, 99], 5), ([97, 98, 99], 20)]).2.2
    [20] (by decide)

/-- C8: for a one-byte piece, `byte_pair_encode` takes the
`piece.len() == 1` early return: a present entry resolves directly to the
singleton of its rank without entering the merge loop, and an absent
entry is the indexing panic `ranks[piece]` (modelled as `none`) — a fatal
invariant violation, not an error value.  Under total single-byte
coverage that failure branch is unreachable. -/
theorem C8_single_byte (b : Nat) (ranks : RankTable) :
    (∀ r : Nat, ranks.lookup [b] = some r → byte_pair_encode [b] ranks = some [r]) ∧
    (ranks.lookup [b] = none → byte_pair_encode [b] ranks = none) ∧
    ((∀ b' : Nat, b' < 256 → (ranks.lookup [b']).isSome) → b < 256 →
      ∃ r : Nat, byte_pair_encode [b] ranks = some [r]) := by
  refine ⟨?_, ?_, ?_⟩
  · intro r hr
    unfold byte_pair_encode
    rw [if_pos (by rfl), hr]
    rfl
  · intro hr
    unfold byte_pair_encode
    rw [if_pos (by rfl), hr]
    rfl
  · intro hcov hb
    have h := hcov b hb
    cases hr : List.lookup [b] ranks with
    | none => rw [hr] at h; simp at h
    | some r =>
      refine ⟨r, ?_⟩
      unfold byte_pair_encode
      rw [if_pos (by rfl), hr]
      rfl

/-- Witness for C8: byte 97 with the table mapping it to rank 5. -/
theorem C8_witness : byte_pair_encode [97] [([97], 5)] = some [5] :=
  (C8_single_byte 97 [([97], 5)]).1 5 (by decide)

theorem getElem?_eraseIdx' {α : Type} : ∀ (l : List α) (i j : Nat),
    (l.eraseIdx i)[j]? = if j < i then l[j]? else l[j + 1]? := by
  intro l
  induction l with
  | nil =>
    intro i j
    simp only [List.eraseIdx]
    split <;> simp
  | cons a t ih =>
    intro i j
    cases i with
    | zero =>
      simp only [List.eraseIdx, Nat.not_lt_zero, if_false, List.getElem?_cons_succ]
    | succ i' =>
      cases j with
      | zero => simp [List.eraseIdx]
      | succ j' =>
        simp only [List.eraseIdx, List.getElem?_cons_succ]
        rw [ih i' j']
        by_cases h : j' < i'
        · rw [if_pos h, if_pos (by omega)]
        · rw [if_neg h, if_neg (by omega)]

theorem partStart_eq {parts : Parts} {i : Nat} {p : Nat × Nat} (h : parts[i]? = some p) :
    partStart parts i = p.1 := by
  unfold partStart
  rw [h]
  rfl

theorem partStart_set (parts : Parts) (i : Nat) (w : Nat) (x : Nat) :
    partStart (parts.set i (partStart parts i, w)) x = partStart parts x := by
  unfold partStart
  rw [List.getElem?_set]
  split
  · rename_i hix
    subst hix
    split
    · rfl
    · rename_i hlen
      rw [List.getElem?_eq_none (by omega)]
  · rfl

theorem getRankAt_set (piece : Bytes) (ranks : RankTable) (parts : Parts) (i w x s : Nat) :
    getRankAt piece ranks (parts.set i (partStart parts i, w)) x s =
      getRankAt piece ranks parts x s := by
  unfold getRankAt
  rw [List.length_set, partStart_set, partStart_set]

theorem set_getElem?_eq_map (parts : Parts) (x : Nat) (g : Nat) :
    (if x < parts.length then some (partStart parts x, g) else none) =
      (parts[x]?).map (fun p => (p.1, g)) := by
  by_cases hlt : x < parts.length
  · rw [if_pos hlt, List.getElem?_eq_getElem hlt, partStart_eq (List.getElem?_eq_getElem hlt)]
    rfl
  · rw [if_neg hlt, List.getElem?_eq_none (by omega)]
    rfl

/-- Elementwise description of the two rank updates: only the ranks at the
scan index `i` and (when `i > 0`) at `i - 1` change, and the starts are
untouched. -/
theorem mergeUpdated_getElem (piece : Bytes) (ranks : RankTable) (parts : Parts) (i t : Nat) :
    (mergeUpdated piece ranks parts i)[t]? =
      if t + 1 = i then
        (parts[t]?).map (fun p => (p.1, (getRankAt piece ranks parts (i - 1) 1).getD RANK_MAX))
      else if t = i then
        (parts[t]?).map (fun p => (p.1, (getRankAt piece ranks parts i 1).getD RANK_MAX))
      else parts[t]? := by
  simp only [mergeUpdated]
  by_cases hi : 0 < i
  · rw [if_pos hi, partStart_set, getRankAt_set, List.getElem?_set, List.length_set]
    by_cases hit : i - 1 = t
    · rw [if_pos hit, if_pos (show t + 1 = i by omega), hit]
      exact set_getElem?_eq_map parts t _
    · rw [if_neg hit, if_neg (show ¬t + 1 = i by omega), List.getElem?_set]
      by_cases hit2 : i = t
      · rw [if_pos hit2, if_pos (show t = i by omega), hit2]
        exact set_getElem?_eq_map parts t _
      · rw [if_neg hit2, if_neg (show ¬t = i by omega)]
  · rw [if_neg hi]
    have hi0 : i = 0 := by omega
    subst hi0
    rw [List.getElem?_set, if_neg (show ¬t + 1 = 0 by omega)]
    by_cases hit : 0 = t
    · rw [if_pos hit, if_pos (show t = 0 by omega), ← hit]
      exact set_getElem?_eq_map parts 0 _
    · rw [if_neg hit, if_neg (show ¬t = 0 by omega)]

/-- Elementwise description of one whole successful merge iteration at scan
result `(r, i)`: parts strictly left of `i - 1` and strictly right of `i`
are shifted copies, the parts at `i - 1` and `i` keep their start and get
the recomputed skip-1 ranks, and the part previously at `i + 1` is gone. -/
theorem mergeOnce_getElem {piece : Bytes} {ranks : RankTable} {parts parts' : Parts} {r i : Nat}
    (hm : minRankFold parts.dropLast 0 (RANK_MAX, 0) = (r, i))
    (h : mergeOnce piece ranks parts = some parts') (t : Nat) :
    parts'[t]? =
      if t + 1 < i then parts[t]?
      else if t + 1 = i then
        (parts[t]?).map (fun p => (p.1, (getRankAt piece ranks parts (i - 1) 1).getD RANK_MAX))
      else if t = i then
        (parts[t]?).map (fun p => (p.1, (getRankAt piece ranks parts i 1).getD RANK_MAX))
      else parts[t + 1]? := by
  rcases mergeOnce_eq_some h with ⟨hne, heq⟩
  rw [hm] at hne heq
  simp only at hne heq
  subst heq
  rw [getElem?_eraseIdx', mergeUpdated_getElem]
  by_cases h1 : t + 1 < i
  · rw [if_pos (show t < i + 1 by omega), if_neg (show ¬t + 1 = i by omega),
      if_neg (show ¬t = i by omega), if_pos h1]
  · by_cases h2 : t + 1 = i
    · rw [if_pos (show t < i + 1 by omega), if_pos h2, if_neg h1, if_pos h2]
    · by_cases h3 : t = i
      · rw [if_pos (show t < i + 1 by omega), if_neg h2, if_pos h3, if_neg h1, if_neg h2, if_pos h3]
      · rw [if_neg (show ¬t < i + 1 by omega), if_neg h1, if_neg h2, if_neg h3,
          mergeUpdated_getElem, if_neg (show ¬t + 1 + 1 = i by omega),
          if_neg (show ¬t + 1 = i by omega)]

theorem length_fillGo (piece : Bytes) (ranks : RankTable) (parts0 : Parts) :
    ∀ (i : Nat) (l : Parts), (fillGo piece ranks parts0 i l).length = l.length := by
  intro i l
  induction l generalizing i with
  | nil => rfl
  | cons p rest ih => simp [fillGo, ih]

theorem length_fillRanks (piece : Bytes) (ranks : RankTable) (parts : Parts) :
    (fillRanks piece ranks parts).length = parts.length :=
  length_fillGo piece ranks parts 0 parts

theorem length_initParts (piece : Bytes) : (initParts piece).length = piece.length + 1 := by
  simp [initParts]

theorem getElem?_initParts (piece : Bytes) (i : Nat) :
    (initParts piece)[i]? = if i < piece.length + 1 then some (i, RANK_MAX) else none := by
  unfold initParts
  rw [List.getElem?_map]
  by_cases h : i < piece.length + 1
  · rw [if_pos h, List.getElem?_range h]
    rfl
  · rw [if_neg h, List.getElem?_eq_none (by simp; omega)]
    rfl

theorem getElem?_fillGo (piece : Bytes) (ranks : RankTable) (parts0 : Parts) :
    ∀ (l : Parts) (i j : Nat), (fillGo piece ranks parts0 i l)[j]? =
      (l[j]?).map (fun p =>
        match getRankAt piece ranks parts0 (i + j) 0 with
        | some r => (p.1, r)
        | none => p) := by
  intro l
  induction l with
  | nil => intro i j; simp [fillGo]
  | cons p rest ih =>
    intro i j
    cases j with
    | zero =>
      simp only [fillGo, List.getElem?_cons_zero, Nat.add_zero]
      rfl
    | succ j' =>
      simp only [fillGo, List.getElem?_cons_succ]
      rw [ih (i + 1) j', show i + 1 + j' = i + (j' + 1) by omega]

theorem getElem?_fillRanks (piece : Bytes) (ranks : RankTable) (parts : Parts) (j : Nat) :
    (fillRanks piece ranks parts)[j]? =
      (parts[j]?).map (fun p =>
        match getRankAt piece ranks parts j 0 with
        | some r => (p.1, r)
        | none => p) := by
  unfold fillRanks
  rw [getElem?_fillGo, show 0 + j = j by omega]

theorem getRankAt_eq {piece : Bytes} {ranks : RankTable} {parts : Parts} {x s : Nat}
    {px py : Nat × Nat} (hx : parts[x]? = some px) (hy : parts[x + s + 2]? = some py) :
    getRankAt piece ranks parts x s = ranks.lookup (slice piece px.1 py.1) := by
  unfold getRankAt
  rw [if_pos (List.getElem?_eq_some.mp hy).1, partStart_eq hx, partStart_eq hy]

theorem getRankAt_none {piece : Bytes} {ranks : RankTable} {parts : Parts} {x s : Nat}
    (hx : parts.length ≤ x + s + 2) :
    getRankAt piece ranks parts x s = none := by
  unfold getRankAt
  rw [if_neg (by omega)]

/-- The loop invariant of `_byte_pair_merge`.  The starts of the parts are
a strictly increasing sequence of cut points running from 0 to
`piece.len()`, every part's stored rank is exactly the table rank of the
byte span covering it and its right neighbour (`u32::MAX` when absent or
when there is no such span, i.e. for the last two parts), and every part
of width above one byte spans a byte sequence present in the table. -/
structure PartsInv (piece : Bytes) (ranks : RankTable) (parts : Parts) : Prop where
  headok : (parts[0]?).map Prod.fst = some 0
  lastok : (parts[parts.length - 1]?).map Prod.fst = some piece.length
  consec : ∀ (t : Nat) (a b : Nat × Nat), parts[t]? = some a → parts[t + 1]? = some b → a.1 < b.1
  bound : ∀ (t : Nat) (a : Nat × Nat), parts[t]? = some a → a.1 ≤ piece.length
  rankok : ∀ (t : Nat) (a c : Nat × Nat), parts[t]? = some a → parts[t + 2]? = some c →
    a.2 = (ranks.lookup (slice piece a.1 c.1)).getD RANK_MAX
  tailok : ∀ (t : Nat) (a : Nat × Nat), parts[t]? = some a → parts[t + 2]? = none → a.2 = RANK_MAX
  pairok : ∀ (t : Nat) (a b : Nat × Nat), parts[t]? = some a → parts[t + 1]? = some b →
    b.1 = a.1 + 1 ∨ (ranks.lookup (slice piece a.1 b.1)).isSome

theorem getElem?_initFill (piece : Bytes) (ranks : RankTable) (j : Nat) :
    (fillRanks piece ranks (initParts piece))[j]? =
      if j < piece.length + 1 then
        some (j, if j + 2 < piece.length + 1
          then (ranks.lookup (slice piece j (j + 2))).getD RANK_MAX
          else RANK_MAX)
      else none := by
  rw [getElem?_fillRanks, getElem?_initParts]
  by_cases h : j < piece.length + 1
  · rw [if_pos h, if_pos h]
    simp only [Option.map_some']
    by_cases h2 : j + 2 < piece.length + 1
    · rw [if_pos h2]
      have hx : (initParts piece)[j]? = some (j, RANK_MAX) := by
        rw [getElem?_initParts, if_pos h]
      have hy : (initParts piece)[j + 0 + 2]? = some ((j + 2 : Nat), RANK_MAX) := by
        rw [show j + 0 + 2 = j + 2 by omega, getElem?_initParts, if_pos h2]
      rw [getRankAt_eq hx hy]
      cases hr : List.lookup (slice piece j (j + 2)) ranks <;> rfl
    · rw [if_neg h2]
      rw [getRankAt_none (by rw [length_initParts]; omega)]
  · rw [if_neg h, if_neg h]
    rfl

/-- The invariant holds for the freshly initialized and rank-filled parts
vector. -/
theorem partsInv_init (piece : Bytes) (ranks : RankTable) :
    PartsInv piece ranks (fillRanks piece ranks (initParts piece)) := by
  have hlen : (fillRanks piece ranks (initParts piece)).length = piece.length + 1 := by
    rw [length_fillRanks, length_initParts]
  constructor
  · rw [getElem?_initFill, if_pos (by omega)]
    rfl
  · rw [hlen]
    rw [show piece.length + 1 - 1 = piece.length by omega]
    rw [getElem?_initFill, if_pos (by omega)]
    rfl
  · intro t a b ha hb
    rw [getElem?_initFill] at ha hb
    split at ha
    · split at hb
      · injection ha with ha; injection hb with hb
        rw [← ha, ← hb]
        omega
      · exact absurd hb (by simp)
    · exact absurd ha (by simp)
  · intro t a ha
    rw [getElem?_initFill] at ha
    split at ha
    · injection ha with ha
      rw [← ha]
      simp only
      omega
    · exact absurd ha (by simp)
  · intro t a c ha hc
    rw [getElem?_initFill] at ha hc
    split at ha
    · split at hc
      · injection ha with ha; injection hc with hc
        rename_i h1 h2
        rw [← ha, ← hc]
        simp only
        rw [if_pos (by omega)]
      · exact absurd hc (by simp)
    · exact absurd ha (by simp)
  · intro t a ha hc
    rw [getElem?_initFill] at ha hc
    split at ha
    · injection ha with ha
      rename_i h1
      split at hc
      · exact absurd hc (by simp)
      · rename_i h2
        rw [← ha]
        simp only
        rw [if_neg (by omega)]
    · exact absurd ha (by simp)
  · intro t a b ha hb
    rw [getElem?_initFill] at ha hb
    split at ha
    · split at hb
      · injection ha with ha; injection hb with hb
        left
        rw [← ha, ← hb]
      · exact absurd hb (by simp)
    · exact absurd ha (by simp)

theorem map_fst_some {o : Option (Nat × Nat)} {x : Nat} (h : o.map Prod.fst = some x) :
    ∃ p : Nat × Nat, o = some p ∧ p.1 = x := by
  cases o with
  | none => simp at h
  | some p => exact ⟨p, rfl, by simpa using h⟩

theorem mergeOnce_fst {piece : Bytes} {ranks : RankTable} {parts parts' : Parts} {r i : Nat}
    (hm : minRankFold parts.dropLast 0 (RANK_MAX, 0) = (r, i))
    (h : mergeOnce piece ranks parts = some parts') (t : Nat) :
    (parts'[t]?).map Prod.fst =
      if t ≤ i then (parts[t]?).map Prod.fst else (parts[t + 1]?).map Prod.fst := by
  rw [mergeOnce_getElem hm h t]
  by_cases h1 : t + 1 < i
  · rw [if_pos h1, if_pos (by omega)]
  · by_cases h2 : t + 1 = i
    · rw [if_neg h1, if_pos h2, if_pos (by omega)]
      cases parts[t]? <;> rfl
    · by_cases h3 : t = i
      · rw [if_neg h1, if_neg h2, if_pos h3, if_pos (by omega)]
        cases parts[t]? <;> rfl
      · rw [if_neg h1, if_neg h2, if_neg h3, if_neg (by omega)]

theorem mergeOnce_cases {piece : Bytes} {ranks : RankTable} {parts parts' : Parts} {r i : Nat}
    (hm : minRankFold parts.dropLast 0 (RANK_MAX, 0) = (r, i))
    (h : mergeOnce piece ranks parts = some parts') (t : Nat) (a : Nat × Nat)
    (ha : parts'[t]? = some a) :
    (t + 1 < i ∧ parts[t]? = some a) ∨
    (t + 1 = i ∧ ∃ p : Nat × Nat, parts[t]? = some p ∧
      a = (p.1, (getRankAt piece ranks parts (i - 1) 1).getD RANK_MAX)) ∨
    (t = i ∧ ∃ p : Nat × Nat, parts[t]? = some p ∧
      a = (p.1, (getRankAt piece ranks parts i 1).getD RANK_MAX)) ∨
    (i < t ∧ parts[t + 1]? = some a) := by
  rw [mergeOnce_getElem hm h t] at ha
  by_cases h1 : t + 1 < i
  · rw [if_pos h1] at ha
    exact Or.inl ⟨h1, ha⟩
  · by_cases h2 : t + 1 = i
    · rw [if_neg h1, if_pos h2] at ha
      cases hp : parts[t]? with
      | none => rw [hp] at ha; simp at ha
      | some p =>
        rw [hp] at ha
        simp only [Option.map_some'] at ha
        exact Or.inr (Or.inl ⟨h2, p, rfl, (Option.some.inj ha).symm⟩)
    · by_cases h3 : t = i
      · rw [if_neg h1, if_neg h2, if_pos h3] at ha
        cases hp : parts[t]? with
        | none => rw [hp] at ha; simp at ha
        | some p =>
          rw [hp] at ha
          simp only [Option.map_some'] at ha
          exact Or.inr (Or.inr (Or.inl ⟨h3, p, rfl, (Option.some.inj ha).symm⟩))
      · rw [if_neg h1, if_neg h2, if_neg h3] at ha
        exact Or.inr (Or.inr (Or.inr ⟨by omega, ha⟩))

/-- One successful merge iteration preserves the loop invariant. -/
theorem mergeOnce_partsInv {piece : Bytes} {ranks : RankTable} {parts parts' : Parts}
    (hinv : PartsInv piece ranks parts) (h : mergeOnce piece ranks parts = some parts') :
    PartsInv piece ranks parts' := by
  obtain ⟨r, i, hm⟩ : ∃ r i, minRankFold parts.dropLast 0 (RANK_MAX, 0) = (r, i) :=
    ⟨_, _, rfl⟩
  have hne : r ≠ RANK_MAX := by
    have hx := (mergeOnce_eq_some h).1
    rw [hm] at hx
    exact hx
  have hms := mergeScan_spec parts (by rw [hm]; exact hne)
  rw [hm] at hms
  simp only at hms
  obtain ⟨hi1, ⟨pm, hpm, hpmr⟩, hminle⟩ := hms
  have hpc : ∃ pc : Nat × Nat, parts[i + 2]? = some pc := by
    cases hc : parts[i + 2]? with
    | some pc => exact ⟨pc, rfl⟩
    | none =>
      have hx := hinv.tailok i pm hpm hc
      exact absurd (hpmr.symm.trans hx) hne
  obtain ⟨pc, hpc⟩ := hpc
  have hi2 : i + 2 < parts.length := (List.getElem?_eq_some.mp hpc).1
  have hlk : ranks.lookup (slice piece pm.1 pc.1) = some r := by
    have hro := hinv.rankok i pm pc hpm hpc
    cases hc : ranks.lookup (slice piece pm.1 pc.1) with
    | none =>
      rw [hc] at hro
      simp at hro
      exact absurd (hpmr.symm.trans hro) hne
    | some v =>
      rw [hc] at hro
      simp at hro
      rw [← hpmr, hro]
  have hL := mergeOnce_length h
  have hfst := mergeOnce_fst hm h
  constructor
  · have h0 := hfst 0
    rw [if_pos (by omega)] at h0
    rw [h0]
    exact hinv.headok
  · have hlast := hfst (parts'.length - 1)
    rw [if_neg (by omega)] at hlast
    rw [hlast, show parts'.length - 1 + 1 = parts.length - 1 by omega]
    exact hinv.lastok
  · intro t a b ha hb
    have hfa := hfst t
    have hfb := hfst (t + 1)
    rw [ha] at hfa
    rw [hb] at hfb
    by_cases c1 : t + 1 ≤ i
    · rw [if_pos (by omega)] at hfa
      rw [if_pos c1] at hfb
      obtain ⟨p, hp, hp1⟩ := map_fst_some hfa.symm
      obtain ⟨q, hq, hq1⟩ := map_fst_some hfb.symm
      have hcq := hinv.consec t p q hp hq
      omega
    · by_cases c2 : t ≤ i
      · rw [if_pos c2] at hfa
        rw [if_neg c1] at hfb
        obtain ⟨p, hp, hp1⟩ := map_fst_some hfa.symm
        obtain ⟨q, hq, hq1⟩ := map_fst_some hfb.symm
        have hti : t = i := by omega
        subst hti
        have hmid := List.getElem?_eq_getElem (show t + 1 < parts.length by omega)
        have c3 := hinv.consec t p _ hp hmid
        have c4 := hinv.consec (t + 1) _ q hmid hq
        omega
      · rw [if_neg c2] at hfa
        rw [if_neg c1] at hfb
        obtain ⟨p, hp, hp1⟩ := map_fst_some hfa.symm
        obtain ⟨q, hq, hq1⟩ := map_fst_some hfb.symm
        have hcq := hinv.consec (t + 1) p q hp hq
        omega
  · intro t a ha
    have hfa := hfst t
    rw [ha] at hfa
    by_cases c1 : t ≤ i
    · rw [if_pos c1] at hfa
      obtain ⟨p, hp, hp1⟩ := map_fst_some hfa.symm
      have hbd := hinv.bound t p hp
      omega
    · rw [if_neg c1] at hfa
      obtain ⟨p, hp, hp1⟩ := map_fst_some hfa.symm
      have hbd := hinv.bound (t + 1) p hp
      omega
  · intro t a c ha hc
    have hfc := hfst (t + 2)
    rw [hc] at hfc
    rcases mergeOnce_cases hm h t a ha with ⟨c1, hpa⟩ | ⟨c1, p, hp, hap⟩ | ⟨c1, p, hp, hap⟩ | ⟨c1, hpa⟩
    · rw [if_pos (by omega)] at hfc
      obtain ⟨q, hq, hq1⟩ := map_fst_some hfc.symm
      have hro := hinv.rankok t a q hpa hq
      rw [hro, hq1]
    · rw [if_neg (by omega)] at hfc
      obtain ⟨q, hq, hq1⟩ := map_fst_some hfc.symm
      have hy : parts[t + 1 + 2]? = some q := hq
      have hit : i - 1 = t := by omega
      rw [hap]
      simp only
      rw [hit, getRankAt_eq hp hy, hq1]
    · rw [if_neg (by omega)] at hfc
      obtain ⟨q, hq, hq1⟩ := map_fst_some hfc.symm
      have hti : i = t := by omega
      subst hti
      have hy : parts[i + 1 + 2]? = some q := hq
      rw [hap]
      simp only
      rw [getRankAt_eq hp hy, hq1]
    · rw [if_neg (by omega)] at hfc
      obtain ⟨q, hq, hq1⟩ := map_fst_some hfc.symm
      have hy : parts[t + 1 + 2]? = some q := hq
      have hro := hinv.rankok (t + 1) a q hpa hy
      rw [hro, hq1]
  · intro t a ha hc
    have hlen2 : parts'.length ≤ t + 2 := by
      by_contra hcon
      rw [not_le] at hcon
      rw [List.getElem?_eq_getElem hcon] at hc
      simp at hc
    rcases mergeOnce_cases hm h t a ha with ⟨c1, hpa⟩ | ⟨c1, p, hp, hap⟩ | ⟨c1, p, hp, hap⟩ | ⟨c1, hpa⟩
    · omega
    · omega
    · rw [hap]
      simp only
      rw [getRankAt_none (by omega)]
      rfl
    · have hnone : parts[t + 1 + 2]? = none := List.getElem?_eq_none (by omega)
      exact hinv.tailok (t + 1) a hpa hnone
  · intro t a b ha hb
    have hfa := hfst t
    have hfb := hfst (t + 1)
    rw [ha] at hfa
    rw [hb] at hfb
    by_cases c1 : t + 1 ≤ i
    · rw [if_pos (by omega)] at hfa
      rw [if_pos c1] at hfb
      obtain ⟨p, hp, hp1⟩ := map_fst_some hfa.symm
      obtain ⟨q, hq, hq1⟩ := map_fst_some hfb.symm
      rcases hinv.pairok t p q hp hq with hw | hw
      · left
        omega
      · right
        rw [← hp1, ← hq1]
        exact hw
    · by_cases c2 : t ≤ i
      · rw [if_pos c2] at hfa
        rw [if_neg c1] at hfb
        obtain ⟨p, hp, hp1⟩ := map_fst_some hfa.symm
        obtain ⟨q, hq, hq1⟩ := map_fst_some hfb.symm
        have hti : t = i := by omega
        subst hti
        have hppm : p = pm := Option.some.inj (hp.symm.trans hpm)
        have hqpc : q = pc := Option.some.inj (hq.symm.trans hpc)
        right
        rw [← hp1, ← hq1, hppm, hqpc, hlk]
        rfl
      · rw [if_neg c2] at hfa
        rw [if_neg c1] at hfb
        obtain ⟨p, hp, hp1⟩ := map_fst_some hfa.symm
        obtain ⟨q, hq, hq1⟩ := map_fst_some hfb.symm
        rcases hinv.pairok (t + 1) p q hp hq with hw | hw
        · left
          omega
        · right
          rw [← hp1, ← hq1]
          exact hw

theorem partsInv_mergeLoopGo (piece : Bytes) (ranks : RankTable) :
    ∀ (fuel : Nat) (parts : Parts), PartsInv piece ranks parts →
      PartsInv piece ranks (mergeLoopGo piece ranks fuel parts) := by
  intro fuel
  induction fuel with
  | zero => intro parts h; exact h
  | succ f ih =>
    intro parts h
    simp only [mergeLoopGo]
    split
    · exact h
    · cases hmo : mergeOnce piece ranks parts with
      | none => exact h
      | some parts' => exact ih parts' (mergeOnce_partsInv h hmo)

/-- The invariant holds for the final parts vector of `_byte_pair_merge`. -/
theorem partsInv_final (piece : Bytes) (ranks : RankTable) :
    PartsInv piece ranks (mergeLoop piece ranks (fillRanks piece ranks (initParts piece))) :=
  partsInv_mergeLoopGo piece ranks _ _ (partsInv_init piece ranks)

theorem getElem?_partsRanges : ∀ (parts : Parts) (t : Nat),
    (partsRanges parts)[t]? =
      match parts[t]?, parts[t + 1]? with
      | some a, some b => some (a.1, b.1)
      | _, _ => none := by
  intro parts
  induction parts with
  | nil => intro t; simp [partsRanges]
  | cons a rest ihp =>
    intro t
    cases rest with
    | nil => cases t <;> simp [partsRanges]
    | cons b rest' =>
      cases t with
      | zero => simp [partsRanges]
      | succ t' =>
        have hr : partsRanges (a :: b :: rest') = (a.1, b.1) :: partsRanges (b :: rest') := rfl
        rw [hr, List.getElem?_cons_succ, ihp t']
        simp only [List.getElem?_cons_succ]

theorem slice_append (piece : Bytes) {a b c : Nat} (hab : a ≤ b) (hbc : b ≤ c) :
    slice piece a b ++ slice piece b c = slice piece a c := by
  unfold slice
  rw [show c - a = (b - a) + (c - b) by omega, List.take_add, List.drop_drop,
    show a + (b - a) = b by omega]

theorem slice_zero_length (piece : Bytes) : slice piece 0 piece.length = piece := by
  simp [slice]

theorem headLast_mono : ∀ (parts : Parts),
    (∀ (t : Nat) (a b : Nat × Nat), parts[t]? = some a → parts[t + 1]? = some b → a.1 ≤ b.1) →
    ∀ (a0 al : Nat × Nat), parts[0]? = some a0 → parts.getLast? = some al → a0.1 ≤ al.1 := by
  intro parts
  induction parts with
  | nil => intro _ _ _ h _; simp at h
  | cons a rest ih =>
    intro hmono a0 al h0 hl
    cases rest with
    | nil =>
      have h0a : a = a0 := by simpa using h0
      have hla : a = al := by simpa using hl
      rw [← h0a, ← hla]
    | cons b rest' =>
      have hmono' : ∀ (t : Nat) (x y : Nat × Nat), (b :: rest')[t]? = some x →
          (b :: rest')[t + 1]? = some y → x.1 ≤ y.1 := by
        intro t x y hx hy
        exact hmono (t + 1) x y (by simpa using hx) (by simpa using hy)
      have hab : a0.1 ≤ b.1 := hmono 0 a0 b h0 (by simp)
      have hbl : b.1 ≤ al.1 := by
        refine ih hmono' b al (by simp) ?_
        rw [← hl, List.getLast?_cons_cons]
      omega

theorem ranges_flatten (piece : Bytes) : ∀ (parts : Parts),
    (∀ (t : Nat) (a b : Nat × Nat), parts[t]? = some a → parts[t + 1]? = some b → a.1 ≤ b.1) →
    ∀ (a0 al : Nat × Nat), parts[0]? = some a0 → parts.getLast? = some al →
      ((partsRanges parts).map (fun p => slice piece p.1 p.2)).flatten =
        slice piece a0.1 al.1 := by
  intro parts
  induction parts with
  | nil => intro _ _ _ h _; simp at h
  | cons a rest ih =>
    intro hmono a0 al h0 hl
    cases rest with
    | nil =>
      have h0a : a = a0 := by simpa using h0
      have hla : a = al := by simpa using hl
      rw [← h0a, ← hla]
      simp [partsRanges, slice]
    | cons b rest' =>
      have h0a : a = a0 := by simpa using h0
      have hr : partsRanges (a :: b :: rest') = (a.1, b.1) :: partsRanges (b :: rest') := rfl
      rw [hr, List.map_cons, List.flatten_cons]
      have hmono' : ∀ (t : Nat) (x y : Nat × Nat), (b :: rest')[t]? = some x →
          (b :: rest')[t + 1]? = some y → x.1 ≤ y.1 := by
        intro t x y hx hy
        exact hmono (t + 1) x y (by simpa using hx) (by simpa using hy)
      have hl' : (b :: rest').getLast? = some al := by
        rw [← hl, List.getLast?_cons_cons]
      rw [ih hmono' b al (by simp) hl']
      have hab : a0.1 ≤ b.1 := hmono 0 a0 b h0 (by simp)
      have hbl : b.1 ≤ al.1 := headLast_mono (b :: rest') hmono' b al (by simp) hl'
      rw [← h0a]
      rw [← h0a] at hab
      exact slice_append piece hab hbl

/-- C10: the byte ranges produced by `_byte_pair_merge` form an ordered
partition of the piece — concatenating the corresponding byte slices
reproduces the piece exactly, each range ends where the next one starts,
and (for a nonempty piece) the first range starts at offset 0 while the
last one ends at the piece's byte length. -/
theorem C10_ranges_partition (piece : Bytes) (ranks : RankTable) :
    (((bytePairMergeRanges piece ranks).map (fun p => slice piece p.1 p.2)).flatten = piece) ∧
    (∀ (t : Nat) (a b : Nat × Nat), (bytePairMergeRanges piece ranks)[t]? = some a →
      (bytePairMergeRanges piece ranks)[t + 1]? = some b → a.2 = b.1) ∧
    (piece ≠ [] →
      ((bytePairMergeRanges piece ranks).head?).map Prod.fst = some 0 ∧
      ((bytePairMergeRanges piece ranks).getLast?).map Prod.snd = some piece.length) := by
  have hinv := partsInv_final piece ranks
  have hbp : bytePairMergeRanges piece ranks =
      partsRanges (mergeLoop piece ranks (fillRanks piece ranks (initParts piece))) := rfl
  revert hinv
  generalize mergeLoop piece ranks (fillRanks piece ranks (initParts piece)) = parts at hbp
  intro hinv
  obtain ⟨a0, h0, h0f⟩ := map_fst_some hinv.headok
  obtain ⟨al, hlast, hlf⟩ := map_fst_some hinv.lastok
  have hal : parts.getLast? = some al := by
    rw [List.getLast?_eq_getElem?]
    exact hlast
  have hmono : ∀ (t : Nat) (a b : Nat × Nat), parts[t]? = some a → parts[t + 1]? = some b →
      a.1 ≤ b.1 := by
    intro t a b ha hb
    have := hinv.consec t a b ha hb
    omega
  refine ⟨?_, ?_, ?_⟩
  · rw [hbp, ranges_flatten piece parts hmono a0 al h0 hal, h0f, hlf, slice_zero_length]
  · intro t a b ha hb
    rw [hbp, getElem?_partsRanges] at ha hb
    cases h1 : parts[t]? with
    | none => rw [h1] at ha; simp at ha
    | some x =>
      cases h2 : parts[t + 1]? with
      | none => rw [h1, h2] at ha; simp at ha
      | some y =>
        cases h3 : parts[t + 1 + 1]? with
        | none => rw [h2, h3] at hb; simp at hb
        | some z =>
          rw [h1, h2] at ha
          rw [h2, h3] at hb
          simp only [Option.some.injEq] at ha hb
          rw [← ha, ← hb]
  · intro hpne
    have hlen2 : 2 ≤ parts.length := by
      have hl1 : 0 < parts.length := (List.getElem?_eq_some.mp h0).1
      by_contra hcon
      have hle : parts.length = 1 := by omega
      rw [hle] at hlast
      simp only [Nat.sub_self] at hlast
      rw [h0] at hlast
      have he : a0 = al := Option.some.inj hlast
      have he1 : a0.1 = al.1 := by rw [he]
      have hz : piece.length = 0 := by omega
      exact hpne (List.length_eq_zero.mp hz)
    obtain ⟨a1, h1⟩ : ∃ a1 : Nat × Nat, parts[1]? = some a1 :=
      ⟨_, List.getElem?_eq_getElem (by omega)⟩
    constructor
    · rw [hbp, List.head?_eq_getElem?, getElem?_partsRanges, h0, h1]
      simp [h0f]
    · rw [hbp, List.getLast?_eq_getElem?, length_partsRanges, getElem?_partsRanges]
      obtain ⟨a2, h2⟩ : ∃ a2 : Nat × Nat, parts[parts.length - 1 - 1]? = some a2 :=
        ⟨_, List.getElem?_eq_getElem (by omega)⟩
      rw [h2, show parts.length - 1 - 1 + 1 = parts.length - 1 by omega, hlast]
      simp [hlf]

/-- Witness for C10 on piece `ab` with table `a, b, ab`: the ranges start
at 0 and end at the piece's length. -/
theorem C10_witness :
    ((bytePairMergeRanges [97, 98] [([97], 0), ([98], 1), ([97, 98], 2)]).head?).map
      Prod.fst = some 0 ∧
    ((bytePairMergeRanges [97, 98] [([97], 0), ([98], 1), ([97, 98], 2)]).getLast?).map
      Prod.snd = some ([97, 98] : Bytes).length :=
  (C10_ranges_partition [97, 98] [([97], 0), ([98], 1), ([97, 98], 2)]).2.2 (by decide)

/-- The `CoreBPE` struct (data fields; the two compiled regexes are
modelled as function parameters of the operations — see the header). -/
structure CoreBPE where
  encoder : RankTable
  specialTokensEncoder : List (Bytes × Nat)
  decoder : List (Nat × Bytes)
  specialTokensDecoder : List (Nat × Bytes)
  sortedTokenBytes : List Bytes
deriving DecidableEq

/-- Byte-lexicographic strict order on byte strings (Rust `&[u8]: Ord`). -/
def bytesLt : Bytes → Bytes → Bool
  | _, [] => false
  | [], _ :: _ => true
  | a :: as, b :: bs => if a < b then true else if a = b then bytesLt as bs else false

def insertSorted (x : Bytes) : List Bytes → List Bytes
  | [] => [x]
  | y :: ys => if bytesLt y x then y :: insertSorted x ys else x :: y :: ys

/-- `sorted_token_bytes.sort()`: modelled as insertion sort by the
byte-lexicographic order (the source relies only on the result being a
sorted copy of the encoder's keys). -/
def sortBytes : List Bytes → List Bytes
  | [] => []
  | x :: xs => insertSorted x (sortBytes xs)

/-- Result of `CoreBPE::new`.  `err` is the typed `Result::Err` path (regex
compilation failures, which live in the external regex crate and are not
modelled further); `panic` is the `assert!(encoder.len() == decoder.len())`
failure, which unwinds instead of returning a `Result`. -/
inductive NewResult where
  | ok (c : CoreBPE)
  | err (msg : String)
  | panic
deriving DecidableEq

def NewResult.isErr : NewResult → Bool
  | .err _ => true
  | _ => false

/-- `CoreBPE::new` on the data: build the decoder as the inverse of the
encoder (`encoder.iter().map(|(k, v)| (*v, k.clone())).collect()` — as a
`HashMap` it has one entry per distinct rank value, so its size is the
number of distinct ranks), `assert!(encoder.len() == decoder.len())`,
then build the special decoder and the sorted key list. -/
def coreBPE_new (encoder : RankTable) (special : List (Bytes × Nat)) : NewResult :=
  if encoder.length = ((encoder.map Prod.snd).dedup).length then
    .ok {
      encoder := encoder
      specialTokensEncoder := special
      decoder := encoder.map (fun kv => (kv.2, kv.1))
      specialTokensDecoder := special.map (fun kv => (kv.2, kv.1))
      sortedTokenBytes := sortBytes (encoder.map Prod.fst) }
  else .panic

/-- `_decode_native`: for each token,
`decoder.get(token).unwrap_or_else(|| &special_tokens_decoder[token])`;
an id in neither map is the indexing panic (`none`), and the accumulated
output is abandoned. -/
def decodeNative (c : CoreBPE) : List Nat → Option Bytes
  | [] => some []
  | t :: ts =>
    match c.decoder.lookup t with
    | some b => (decodeNative c ts).map (fun rest => b ++ rest)
    | none =>
      match c.specialTokensDecoder.lookup t with
      | some b => (decodeNative c ts).map (fun rest => b ++ rest)
      | none => none

/-- Decoding through the ordinary decoder only (`self.decoder[&token]`),
as the truncation loop of `_encode_unstable_native` does. -/
def ordDecode (c : CoreBPE) : List Nat → Option Bytes
  | [] => some []
  | t :: ts =>
    match c.decoder.lookup t with
    | some b => (ordDecode c ts).map (fun rest => b ++ rest)
    | none => none

/-- The shared piece loop of `_encode_ordinary_native` and
`_encode_native`: for each regex piece, an exact encoder hit pushes one
rank (and sets `last_piece_token_len = 1`), otherwise `byte_pair_encode`
pushes its ranks (and sets `last_piece_token_len` to their count). -/
def encodePiecesGo (c : CoreBPE) : List Bytes → List Nat × Nat → Option (List Nat × Nat)
  | [], acc => some acc
  | piece :: rest, (ret, _) =>
    match c.encoder.lookup piece with
    | some t => encodePiecesGo c rest (ret ++ [t], 1)
    | none =>
      match byte_pair_encode piece c.encoder with
      | some ts => encodePiecesGo c rest (ret ++ ts, ts.length)
      | none => none

/-- `_encode_ordinary_native` (the `last_piece_token_len` bookkeeping is
shared with `_encode_native` through `encodePiecesGo`; the ordinary
variant returns only the tokens). -/
def encodeOrdinaryNative (c : CoreBPE) (split : Bytes → List Bytes) (text : Bytes) :
    Option (List Nat) :=
  (encodePiecesGo c (split text) ([], 0)).map Prod.fst

/-- The `loop` of `_encode_native`, with explicit fuel: find the next
special match from the cursor, run the piece loop on the ordinary
sub-text before it, then either push the special token's rank (indexing
panic `none` when the matched text is not a key of the special encoder)
and continue past the match, or stop.  `none` on fuel exhaustion models a
non-terminating loop, which cannot happen when every special match is
nonempty and in bounds. -/
def encodeNativeGo (c : CoreBPE) (split : Bytes → List Bytes)
    (findSpecial : Bytes → Nat → Option (Nat × Nat)) (text : Bytes) :
    Nat → Nat → List Nat × Nat → Option (List Nat × Nat)
  | 0, _, _ => none
  | fuel + 1, start, acc =>
    let nextSpecial := findSpecial text start
    let e := match nextSpecial with
      | none => text.length
      | some m => m.1
    match encodePiecesGo c (split (slice text start e)) acc with
    | none => none
    | some acc' =>
      match nextSpecial with
      | some m =>
        match c.specialTokensEncoder.lookup (slice text m.1 m.2) with
        | some t => encodeNativeGo c split findSpecial text fuel m.2 (acc'.1 ++ [t], 0)
        | none => none
      | none => some acc'

/-- `_encode_native(text)`, returning `(tokens, last_piece_token_len)`. -/
def encodeNative (c : CoreBPE) (split : Bytes → List Bytes)
    (findSpecial : Bytes → Nat → Option (Nat × Nat)) (text : Bytes) :
    Option (List Nat × Nat) :=
  encodeNativeGo c split findSpecial text (text.length + 1) 0 ([], 0)

/-- `CoreBPE::encode`: `self._encode_native(text).0`. -/
def encode (c : CoreBPE) (split : Bytes → List Bytes)
    (findSpecial : Bytes → Nat → Option (Nat × Nat)) (text : Bytes) : Option (List Nat) :=
  (encodeNative c split findSpecial text).map Prod.fst

/-- `token_is_all_space`: the ordinary decoding of the token consists
only of space, newline and tab bytes (an absent token gives `false`). -/
def tokenIsAllSpace (c : CoreBPE) (t : Nat) : Bool :=
  match c.decoder.lookup t with
  | some bytes => bytes.reverse.all (fun b => b == 32 || b == 10 || b == 9)
  | none => false

def increaseGo (c : CoreBPE) (tokens : List Nat) : Nat → Nat → Nat
  | 0, lastLen => lastLen
  | fuel + 1, lastLen =>
    if lastLen < tokens.length then
      if tokenIsAllSpace c (tokens.getD (tokens.length - lastLen - 1) 0) then
        increaseGo c tokens fuel (lastLen + 1)
      else lastLen
    else lastLen

/-- `_increase_last_piece_token_len`.  The initial read
`tokens[tokens.len() - last_piece_token_len]` is an indexing panic when
`last_piece_token_len > tokens.len()` (modelled as `none`); the `while`
loop extends `last_piece_token_len` while the token one place further
back decodes to pure whitespace, and stops within `tokens.length` steps
of fuel since it never exceeds `tokens.length`. -/
def increaseLastPieceTokenLen (c : CoreBPE) (tokens : List Nat) (lastLen : Nat) :
    Option (List Nat × Nat) :=
  if 0 < lastLen then
    if lastLen ≤ tokens.length then
      if tokenIsAllSpace c (tokens.getD (tokens.length - lastLen) 0) then
        some (tokens, increaseGo c tokens tokens.length lastLen)
      else some (tokens, lastLen)
    else none
  else some (tokens, lastLen)

/-- `Vec::partition_point(pred)` on a list partitioned by `pred` (as the
sorted `sorted_token_bytes` is for the comparison predicates used here):
the length of the initial run satisfying the predicate. -/
def partitionPoint (l : List Bytes) (pred : Bytes → Bool) : Nat :=
  (l.takeWhile pred).length

/-- The truncation loop of `_encode_unstable_native`:
`for token in encoded { seq.push(token); seq_len += decoder[&token].len(); if seq_len >= unstable_bytes.len() { break } }`.
`acc` is the byte length accumulated so far; the decoder indexing panic
is `none`. -/
def truncGo (c : CoreBPE) (target : Nat) : Nat → List Nat → Option (List Nat)
  | _, [] => some []
  | acc, t :: ts =>
    match c.decoder.lookup t with
    | none => none
    | some b =>
      if target ≤ acc + b.length then some [t]
      else (truncGo c target (acc + b.length) ts).map (fun rest => t :: rest)

/-- Step 5 of `_encode_unstable_native` (direct single-token
completions): binary-search `sorted_token_bytes` for the first entry not
below `unstable_bytes` (`partition_point`), then walk forward inserting
`vec![encoder[entry]]` while entries start with `unstable_bytes`.  `none`
models the `encoder` indexing panic. -/
def directComps (c : CoreBPE) (unstableBytes : Bytes) : Option (List (List Nat)) :=
  let point := partitionPoint c.sortedTokenBytes (fun x => bytesLt x unstableBytes)
  ((c.sortedTokenBytes.drop point).takeWhile (fun x => unstableBytes.isPrefixOf x)).mapM
    (fun x => (c.encoder.lookup x).map (fun r => [r]))

/-- Step 6 of `_encode_unstable_native` (split-point completions): for
every internal split position `i`, search the sorted index for entries
starting with the suffix, re-encode `prefix ++ entry` — through
`_encode_ordinary_native` when it is valid UTF-8, through
`byte_pair_encode` otherwise — and keep leading ranks until their decoded
length reaches `unstable_bytes.len()` (`truncGo`). -/
def splitComps (c : CoreBPE) (split : Bytes → List Bytes) (validUtf8 : Bytes → Bool)
    (unstableBytes : Bytes) : Option (List (List (List Nat))) :=
  (List.range' 1 (unstableBytes.length - 1)).mapM (fun i =>
    let pre := unstableBytes.take i
    let suf := unstableBytes.drop i
    let point2 := partitionPoint c.sortedTokenBytes (fun x => bytesLt x suf)
    ((c.sortedTokenBytes.drop point2).takeWhile (fun x => suf.isPrefixOf x)).mapM (fun entry =>
      match (if validUtf8 (pre ++ entry)
        then encodeOrdinaryNative c split (pre ++ entry)
        else byte_pair_encode (pre ++ entry) c.encoder) with
      | none => none
      | some encoded => truncGo c unstableBytes.length 0 encoded))

/-- Step 7 of `_encode_unstable_native` (the whitespace-split patch): when
the unstable bytes have length above one, their final character (per
`bstr::decode_last_utf8`, abstracted by `lastCharLen`/`lastCharIsWs`) is
whitespace and does not occupy the whole run, re-merge the bytes before
that character and the character's own bytes separately and insert the
concatenation as one completion. -/
def wsComps (c : CoreBPE) (lastCharLen : Bytes → Nat) (lastCharIsWs : Bytes → Bool)
    (unstableBytes : Bytes) : Option (List (List Nat)) :=
  if 1 < unstableBytes.length then
    if 0 < unstableBytes.length - lastCharLen unstableBytes then
      if lastCharIsWs unstableBytes then
        match byte_pair_encode
            (unstableBytes.take (unstableBytes.length - lastCharLen unstableBytes)) c.encoder,
          byte_pair_encode
            (unstableBytes.drop (unstableBytes.length - lastCharLen unstableBytes)) c.encoder with
        | some u, some v => some [u ++ v]
        | _, _ => none
      else some []
    else some []
  else some []

/-- `_encode_unstable_native`.  `validUtf8` models `std::str::from_utf8`
succeeding on a byte string, `lastCharLen` models the byte count consumed
by `bstr::decode_last_utf8`, and `lastCharIsWs` models its decoded
character existing and being whitespace — all external library
behaviour, passed as parameters.  The completions `HashSet` is modelled
as the list of inserted candidates (the properties proved below are
about membership). -/
def encodeUnstableNative (c : CoreBPE) (split : Bytes → List Bytes)
    (findSpecial : Bytes → Nat → Option (Nat × Nat)) (validUtf8 : Bytes → Bool)
    (lastCharLen : Bytes → Nat) (lastCharIsWs : Bytes → Bool) (text : Bytes) :
    Option (List Nat × List (List Nat)) :=
  match encodeNative c split findSpecial text with
  | none => none
  | some (tokens0, lastLen0) =>
    if lastLen0 = 0 then some (tokens0, [])
    else
      match increaseLastPieceTokenLen c tokens0 lastLen0 with
      | none => none
      | some (tokens1, lastLen) =>
        match decodeNative c (tokens1.drop (tokens1.length - lastLen)) with
        | none => none
        | some unstableBytes =>
          let tokens := tokens1.take (tokens1.length - lastLen)
          if unstableBytes = [] then some (tokens, [])
          else
            match directComps c unstableBytes with
            | none => none
            | some comps1 =>
              match splitComps c split validUtf8 unstableBytes with
              | none => none
              | some comps2 =>
                match wsComps c lastCharLen lastCharIsWs unstableBytes with
                | none => none
                | some comps3 => some (tokens, comps1 ++ comps2.flatten ++ comps3)

/-- `u32::to_le_bytes` (ranks are below 2^32). -/
def toLE4 (x : Nat) : Bytes := [x % 256, x / 256 % 256, x / 65536 % 256, x / 16777216 % 256]

/-- `TokenizerImpl::encode` for the tiktoken variant (`src/lib.rs`): the
tokenizer is fetched from the registry, `tokenizer.encode(&input)` is
called — the request's `special_tokens: Option<bool>` field is not passed
to it — and the resulting ranks are serialized as little-endian 4-byte
integers.  The deserialization/registry boundary is out of scope; the
codec and the raw text are taken directly. -/
def tokenizerImplEncode (c : CoreBPE) (split : Bytes → List Bytes)
    (findSpecial : Bytes → Nat → Option (Nat × Nat)) (input : Bytes)
    (specialTokens : Option Bool) : Option Bytes :=
  (encode c split findSpecial input).map (fun ts => (ts.map toLE4).flatten)

/-- Modelled from the spec (§3, Special-Token Pattern) and the regex
engine's semantics: with an empty special-token table, `CoreBPE::new`
joins zero escaped literals with the OR operator, producing the empty
pattern, and the empty pattern matches the empty string at every
position — `find_from_pos(text, pos)` returns the empty match
`(pos, pos)`. -/
def emptyPatternFind (text : Bytes) (pos : Nat) : Option (Nat × Nat) :=
  if pos ≤ text.length then some (pos, pos) else none

/-- C4 (code bug): with an empty special-token table the special pattern
built by `CoreBPE::new` is the empty alternation, which matches the empty
string at position 0 of any text; `_encode_native` then evaluates
`self.special_tokens_encoder[piece]` with the empty matched string and
panics on the missing key.  At the failing input (codec over a vocabulary
containing "a", empty special table, text "a"): `encode` panics
(`none`), while `encode_ordinary` — which the claim says it should equal —
returns the rank of "a". -/
theorem C4_empty_special_panics :
    encodeNative ⟨[([97], 0)], [], [(0, [97])], [], [[97]]⟩
      (fun b => if b = [] then [] else [b]) emptyPatternFind [97] = none ∧
    encodeOrdinaryNative ⟨[([97], 0)], [], [(0, [97])], [], [[97]]⟩
      (fun b => if b = [] then [] else [b]) [97] = some [0] := by
  constructor <;> rfl

/-- C5 counterexample: at the concrete duplicate-rank vocabulary
([0] ↦ 1, [1] ↦ 1), `CoreBPE::new` fails through `assert!` — modelled as
`NewResult.panic` — and not through the typed error result the claim
asserts (`isErr` is `false`). -/
theorem C5_counterexample :
    coreBPE_new [([0], 1), ([1], 1)] [] = NewResult.panic ∧
    (coreBPE_new [([0], 1), ([1], 1)] []).isErr = false := by
  constructor <;> rfl

/-- C5 (amended): for every encoder table with distinct keys (the
`HashMap` guarantee) whose rank values are not pairwise distinct — two
distinct byte sequences share a rank — construction fails fast, but via
the `assert!(encoder.len() == decoder.len())` panic, not a typed error
result. -/
theorem C5_duplicate_rank_panics (encoder : RankTable) (special : List (Bytes × Nat))
    (hkeys : (encoder.map Prod.fst).Nodup) (hdup : ¬(encoder.map Prod.snd).Nodup) :
    coreBPE_new encoder special = NewResult.panic := by
  have hk := hkeys
  unfold coreBPE_new
  rw [if_neg]
  intro heq
  apply hdup
  have hlen : (encoder.map Prod.snd).length = encoder.length := by simp
  have hsub : List.Sublist ((encoder.map Prod.snd).dedup) (encoder.map Prod.snd) :=
    List.dedup_sublist (encoder.map Prod.snd)
  have heq2 : (encoder.map Prod.snd).dedup = encoder.map Prod.snd :=
    hsub.eq_of_length (by omega)
  rw [← heq2]
  exact List.nodup_dedup (encoder.map Prod.snd)

/-- Witness for C5 (amended) at the duplicate-rank table ([0] ↦ 1, [1] ↦ 1). -/
theorem C5_witness : coreBPE_new [([0], 1), ([1], 1)] [] = NewResult.panic :=
  C5_duplicate_rank_panics [([0], 1), ([1], 1)] [] (by decide) (by decide)

/-- C9 counterexample: with a special token "<" ↦ 7 whose bytes are also
an ordinary token ("<" ↦ 1), the external-interface encode invoked with
`special_tokens = some false` still recognizes and emits the special rank
7 (serialized little-endian), which differs from encoding with
special-token recognition disabled (`encode_ordinary`, giving rank 1). -/
theorem C9_counterexample :
    tokenizerImplEncode ⟨[([97], 0), ([60], 1)], [([60], 7)], [(0, [97]), (1, [60])],
        [(7, [60])], [[60], [97]]⟩
      (fun b => if b = [] then [] else [b])
      (fun _ pos => if pos = 0 then some (0, 1) else none) [60] (some false) =
      some [7, 0, 0, 0] ∧
    (encodeOrdinaryNative ⟨[([97], 0), ([60], 1)], [([60], 7)], [(0, [97]), (1, [60])],
        [(7, [60])], [[60], [97]]⟩
      (fun b => if b = [] then [] else [b]) [60]).map (fun ts => (ts.map toLE4).flatten) =
      some [1, 0, 0, 0] ∧
    (some [7, 0, 0, 0] : Option Bytes) ≠ some [1, 0, 0, 0] := by
  refine ⟨rfl, rfl, by decide⟩

/-- C9 (amended): the tiktoken branch of `TokenizerImpl::encode` ignores
the request's `special_tokens` parameter entirely: for every codec, text
and any two parameter values the results coincide, and both equal
`CoreBPE::encode` (whose special-token recognition is always enabled),
serialized as little-endian 4-byte ranks. -/
theorem C9_param_ignored (c : CoreBPE) (split : Bytes → List Bytes)
    (findSpecial : Bytes → Nat → Option (Nat × Nat)) (input : Bytes)
    (b1 b2 : Option Bool) :
    tokenizerImplEncode c split findSpecial input b1 =
      tokenizerImplEncode c split findSpecial input b2 ∧
    tokenizerImplEncode c split findSpecial input b1 =
      (encode c split findSpecial input).map (fun ts => (ts.map toLE4).flatten) :=
  ⟨rfl, rfl⟩

/-- One token's resolution in `_decode_native`:
`self.decoder.get(token).unwrap_or_else(|| &self.special_tokens_decoder[token])`,
ordinary decoder first. -/
def resolveToken (c : CoreBPE) (t : Nat) : Option Bytes :=
  match c.decoder.lookup t with
  | some b => some b
  | none => c.specialTokensDecoder.lookup t

theorem decodeNative_cons (c : CoreBPE) (t : Nat) (ts : List Nat) :
    decodeNative c (t :: ts) =
      (resolveToken c t).bind (fun b => (decodeNative c ts).map (fun rest => b ++ rest)) := by
  show (match c.decoder.lookup t with
    | some b => (decodeNative c ts).map (fun rest => b ++ rest)
    | none =>
      match c.specialTokensDecoder.lookup t with
      | some b => (decodeNative c ts).map (fun rest => b ++ rest)
      | none => none) = _
  unfold resolveToken
  cases c.decoder.lookup t with
  | some b => rfl
  | none =>
    cases c.specialTokensDecoder.lookup t with
    | some b => rfl
    | none => rfl

/-- C6: decode resolves each rank through the ordinary decoder first,
falling back to the special decoder only when the ordinary decoder has no
entry; a rank found in neither is fatal for the whole call — `none`, no
partial output; otherwise the result is the concatenation of the
resolved byte sequences in input order. -/
theorem C6_decode_resolution (c : CoreBPE) (ts : List Nat) :
    decodeNative c ts = (ts.mapM (resolveToken c)).map (fun bs => bs.flatten) ∧
    (∀ (t : Nat) (b : Bytes), c.decoder.lookup t = some b → resolveToken c t = some b) ∧
    (∀ t : Nat, c.decoder.lookup t = none →
      resolveToken c t = c.specialTokensDecoder.lookup t) ∧
    (∀ t : Nat, t ∈ ts → resolveToken c t = none → decodeNative c ts = none) := by
  refine ⟨?_, ?_, ?_, ?_⟩
  · induction ts with
    | nil =>
      rw [List.mapM_nil]
      rfl
    | cons t ts ih =>
      rw [List.mapM_cons, decodeNative_cons, ih]
      cases hr : resolveToken c t with
      | none => rfl
      | some b =>
        cases hm : List.mapM (resolveToken c) ts with
        | none => rfl
        | some bs => rfl
  · intro t b hd
    unfold resolveToken
    rw [hd]
  · intro t hd
    unfold resolveToken
    rw [hd]
  · intro t hmem hres
    induction ts with
    | nil => simp at hmem
    | cons u ts ih =>
      rw [decodeNative_cons]
      rcases List.mem_cons.mp hmem with heq | hmem'
      · subst heq
        rw [hres]
        rfl
      · cases hr : resolveToken c u with
        | none => rfl
        | some b =>
          rw [ih hmem']
          rfl

/-- Witness for C6: in a codec whose decoders know ranks 0 (ordinary) and
7 (special) only, decoding `[99]` is fatal with no partial output. -/
theorem C6_witness :
    decodeNative ⟨[([97], 0), ([60], 1)], [([60], 7)], [(0, [97]), (1, [60])],
      [(7, [60])], [[60], [97]]⟩ [99] = none :=
  (C6_decode_resolution ⟨[([97], 0), ([60], 1)], [([60], 7)], [(0, [97]), (1, [60])],
      [(7, [60])], [[60], [97]]⟩ [99]).2.2.2 99 (by decide) (by rfl)

theorem lookup_mem {α β : Type} [BEq α] [LawfulBEq α] {t : List (α × β)} {k : α} {r : β}
    (h : t.lookup k = some r) : (k, r) ∈ t := by
  induction t with
  | nil => simp [List.lookup] at h
  | cons kv rest ih =>
    rw [show kv = (kv.1, kv.2) from rfl, List.lookup_cons] at h
    cases hbe : (k == kv.1) with
    | true =>
      rw [hbe] at h
      simp only [Option.some.injEq] at h
      have hk : k = kv.1 := eq_of_beq hbe
      rw [List.mem_cons]
      left
      rw [hk, ← h]
    | false =>
      rw [hbe] at h
      exact List.mem_cons_of_mem _ (ih h)

theorem lookup_of_mem_nodup {α β : Type} [BEq α] [LawfulBEq α] {t : List (α × β)}
    (hkeys : (t.map Prod.fst).Nodup) {k : α} {r : β} (hmem : (k, r) ∈ t) :
    t.lookup k = some r := by
  induction t with
  | nil => simp at hmem
  | cons kv rest ih =>
    rw [List.map_cons, List.nodup_cons] at hkeys
    rcases List.mem_cons.mp hmem with heq | hmem'
    · rw [show kv = (kv.1, kv.2) from rfl, List.lookup_cons, show k = kv.1 from by rw [← heq],
        beq_self_eq_true]
      rw [← heq]
    · have hk : k ≠ kv.1 := by
        intro hkk
        exact hkeys.1 (List.mem_map.mpr ⟨(k, r), hmem', by rw [hkk]⟩)
      rw [show kv = (kv.1, kv.2) from rfl, List.lookup_cons]
      rw [show (k == kv.1) = false from beq_eq_false_iff_ne.mpr hk]
      exact ih hkeys.2 hmem'

theorem lookup_swap {α β : Type} [BEq α] [LawfulBEq α] [BEq β] [LawfulBEq β]
    {t : List (α × β)} (hranks : (t.map Prod.snd).Nodup) {k : α} {r : β} (hmem : (k, r) ∈ t) :
    (t.map (fun kv => (kv.2, kv.1))).lookup r = some k := by
  induction t with
  | nil => simp at hmem
  | cons kv rest ih =>
    rw [List.map_cons, List.nodup_cons] at hranks
    rw [List.map_cons, List.lookup_cons]
    rcases List.mem_cons.mp hmem with heq | hmem'
    · rw [show r = kv.2 from by rw [← heq], beq_self_eq_true]
      rw [← heq]
    · have hr : r ≠ kv.2 := by
        intro hrr
        exact hranks.1 (List.mem_map.mpr ⟨(k, r), hmem', by rw [hrr]⟩)
      rw [show (r == kv.2) = false from beq_eq_false_iff_ne.mpr hr]
      exact ih hranks.2 hmem'

/-- `CoreBPE::new` succeeding guarantees the decoder is the exact inverse
of the encoder: with unique keys (the `HashMap` guarantee) and the
distinct ranks established by the `assert!`, every encoder entry decodes
back to its byte sequence, and vice versa. -/
theorem coreBPE_new_inverse {encoder : RankTable} {special : List (Bytes × Nat)} {c : CoreBPE}
    (hkeys : (encoder.map Prod.fst).Nodup)
    (hnew : coreBPE_new encoder special = NewResult.ok c) :
    (∀ (k : Bytes) (r : Nat), c.encoder.lookup k = some r → c.decoder.lookup r = some k) ∧
    (∀ (r : Nat) (k : Bytes), c.decoder.lookup r = some k → c.encoder.lookup k = some r) := by
  unfold coreBPE_new at hnew
  split at hnew
  · rename_i heq
    injection hnew with hnew
    have hranks : (encoder.map Prod.snd).Nodup := by
      have hlen : (encoder.map Prod.snd).length = encoder.length := by simp
      have hsub : List.Sublist ((encoder.map Prod.snd).dedup) (encoder.map Prod.snd) :=
        List.dedup_sublist (encoder.map Prod.snd)
      have heq2 : (encoder.map Prod.snd).dedup = encoder.map Prod.snd :=
        hsub.eq_of_length (by omega)
      rw [← heq2]
      exact List.nodup_dedup (encoder.map Prod.snd)
    constructor
    · intro k r h
      rw [← hnew] at h ⊢
      exact lookup_swap hranks (lookup_mem h)
    · intro r k h
      rw [← hnew] at h ⊢
      have hmem : (r, k) ∈ encoder.map (fun kv => (kv.2, kv.1)) := lookup_mem h
      rcases List.mem_map.mp hmem with ⟨kv, hkv, hswap⟩
      have h1 : kv.2 = r := congrArg Prod.fst hswap
      have h2 : kv.1 = k := congrArg Prod.snd hswap
      rw [← h1, ← h2]
      exact lookup_of_mem_nodup hkeys (by rw [show (kv.1, kv.2) = kv from rfl]; exact hkv)
  · exact absurd hnew (by simp)

theorem ordDecode_cons (c : CoreBPE) (t : Nat) (ts : List Nat) :
    ordDecode c (t :: ts) =
      (c.decoder.lookup t).bind (fun b => (ordDecode c ts).map (fun rest => b ++ rest)) := by
  show (match c.decoder.lookup t with
    | some b => (ordDecode c ts).map (fun rest => b ++ rest)
    | none => none) = _
  cases c.decoder.lookup t <;> rfl

theorem ordDecode_append {c : CoreBPE} : ∀ {xs ys : List Nat} {bx bys : Bytes},
    ordDecode c xs = some bx → ordDecode c ys = some bys →
    ordDecode c (xs ++ ys) = some (bx ++ bys) := by
  intro xs
  induction xs with
  | nil =>
    intro ys bx bys hx hy
    simp only [ordDecode] at hx
    injection hx with hx
    rw [← hx]
    simpa using hy
  | cons t ts ih =>
    intro ys bx bys hx hy
    rw [ordDecode_cons] at hx
    show ordDecode c (t :: (ts ++ ys)) = _
    rw [ordDecode_cons]
    cases hd : c.decoder.lookup t with
    | none => rw [hd] at hx; simp at hx
    | some b =>
      rw [hd] at hx
      cases ht : ordDecode c ts with
      | none => rw [ht] at hx; simp at hx
      | some bts =>
        rw [ht] at hx
        simp at hx
        rw [ih ht hy]
        simp [← hx, List.append_assoc]

theorem decodeNative_of_ordDecode {c : CoreBPE} : ∀ {ts : List Nat} {bs : Bytes},
    ordDecode c ts = some bs → decodeNative c ts = some bs := by
  intro ts
  induction ts with
  | nil => intro bs h; exact h
  | cons t ts ih =>
    intro bs h
    rw [ordDecode_cons] at h
    rw [decodeNative_cons]
    unfold resolveToken
    cases hd : c.decoder.lookup t with
    | none => rw [hd] at h; simp at h
    | some b =>
      rw [hd] at h
      cases ht : ordDecode c ts with
      | none => rw [ht] at h; simp at h
      | some bts =>
        rw [ht] at h
        rw [ih ht]
        exact h

theorem decodeNative_append {c : CoreBPE} : ∀ {xs ys : List Nat} {bx bys : Bytes},
    decodeNative c xs = some bx → decodeNative c ys = some bys →
    decodeNative c (xs ++ ys) = some (bx ++ bys) := by
  intro xs
  induction xs with
  | nil =>
    intro ys bx bys hx hy
    simp only [decodeNative] at hx
    injection hx with hx
    rw [← hx]
    simpa using hy
  | cons t ts ih =>
    intro ys bx bys hx hy
    rw [decodeNative_cons] at hx
    show decodeNative c (t :: (ts ++ ys)) = _
    rw [decodeNative_cons]
    cases hr : resolveToken c t with
    | none => rw [hr] at hx; simp at hx
    | some b =>
      rw [hr] at hx
      cases ht : decodeNative c ts with
      | none => rw [ht] at hx; simp at hx
      | some bts =>
        rw [ht] at hx
        simp at hx
        rw [ih ht hy]
        simp [← hx, List.append_assoc]

/-- Helper: the concatenation identity of the merge ranges (derived from
the loop invariant; also the first conjunct of the theorem for C10). -/
theorem bpmr_flatten (piece : Bytes) (ranks : RankTable) :
    ((bytePairMergeRanges piece ranks).map (fun p => slice piece p.1 p.2)).flatten = piece := by
  have hinv := partsInv_final piece ranks
  have hbp : bytePairMergeRanges piece ranks =
      partsRanges (mergeLoop piece ranks (fillRanks piece ranks (initParts piece))) := rfl
  revert hinv
  generalize mergeLoop piece ranks (fillRanks piece ranks (initParts piece)) = parts at hbp
  intro hinv
  obtain ⟨a0, h0, h0f⟩ := map_fst_some hinv.headok
  obtain ⟨al, hlast, hlf⟩ := map_fst_some hinv.lastok
  have hal : parts.getLast? = some al := by
    rw [List.getLast?_eq_getElem?]
    exact hlast
  have hmono : ∀ (t : Nat) (a b : Nat × Nat), parts[t]? = some a → parts[t + 1]? = some b →
      a.1 ≤ b.1 := by
    intro t a b ha hb
    have := hinv.consec t a b ha hb
    omega
  rw [hbp, ranges_flatten piece parts hmono a0 al h0 hal, h0f, hlf, slice_zero_length]

/-- Helper: every merge range is nonempty, ends within the piece, and is
either a single byte or a byte span present in the rank table (derived
from the loop invariant). -/
theorem ranges_facts (piece : Bytes) (ranks : RankTable) :
    ∀ p ∈ bytePairMergeRanges piece ranks, p.1 < p.2 ∧ p.2 ≤ piece.length ∧
      (p.2 = p.1 + 1 ∨ (ranks.lookup (slice piece p.1 p.2)).isSome) := by
  have hinv := partsInv_final piece ranks
  have hbp : bytePairMergeRanges piece ranks =
      partsRanges (mergeLoop piece ranks (fillRanks piece ranks (initParts piece))) := rfl
  revert hinv
  generalize mergeLoop piece ranks (fillRanks piece ranks (initParts piece)) = parts at hbp
  intro hinv
  intro p hp
  rw [hbp] at hp
  obtain ⟨t, ht⟩ := List.mem_iff_getElem?.mp hp
  rw [getElem?_partsRanges] at ht
  cases h1 : parts[t]? with
  | none => rw [h1] at ht; simp at ht
  | some x =>
    cases h2 : parts[t + 1]? with
    | none => rw [h1, h2] at ht; simp at ht
    | some y =>
      rw [h1, h2] at ht
      simp only [Option.some.injEq] at ht
      have hc := hinv.consec t x y h1 h2
      have hb := hinv.bound (t + 1) y h2
      have hpair := hinv.pairok t x y h1 h2
      rw [← ht]
      exact ⟨hc, hb, hpair⟩

theorem slice_one {piece : Bytes} {a : Nat} (h : a < piece.length) :
    ∃ b : Nat, slice piece a (a + 1) = [b] ∧ b ∈ piece := by
  unfold slice
  rw [show a + 1 - a = 1 by omega]
  cases hd : piece.drop a with
  | nil =>
    have hlen : (piece.drop a).length = piece.length - a := List.length_drop a piece
    rw [hd] at hlen
    simp at hlen
    omega
  | cons b rest =>
    refine ⟨b, by simp, ?_⟩
    have hbm : b ∈ piece.drop a := by
      rw [hd]
      exact List.mem_cons_self b rest
    exact List.mem_of_mem_drop hbm

theorem ranges_encode_decode (c : CoreBPE)
    (hcover : ∀ b : Nat, b < 256 → (c.encoder.lookup [b]).isSome)
    (hinv : ∀ (k : Bytes) (r : Nat), c.encoder.lookup k = some r → c.decoder.lookup r = some k)
    (piece : Bytes) (hbytes : ∀ b ∈ piece, b < 256) :
    ∀ rs : List (Nat × Nat),
      (∀ p ∈ rs, p.1 < p.2 ∧ p.2 ≤ piece.length ∧
        (p.2 = p.1 + 1 ∨ (c.encoder.lookup (slice piece p.1 p.2)).isSome)) →
      ∃ ts : List Nat, rs.mapM (fun p => c.encoder.lookup (slice piece p.1 p.2)) = some ts ∧
        ordDecode c ts = some ((rs.map (fun p => slice piece p.1 p.2)).flatten) := by
  intro rs
  induction rs with
  | nil =>
    intro _
    refine ⟨[], ?_, rfl⟩
    rw [List.mapM_nil]
    rfl
  | cons p rest ih =>
    intro hfacts
    obtain ⟨hlt, hle, hdisj⟩ := hfacts p (List.mem_cons_self p rest)
    have hsome : (c.encoder.lookup (slice piece p.1 p.2)).isSome := by
      rcases hdisj with hw | hw
      · rw [hw]
        obtain ⟨b, hb, hbm⟩ := slice_one (show p.1 < piece.length by omega)
        rw [hb]
        exact hcover b (hbytes b hbm)
      · exact hw
    obtain ⟨r, hr⟩ : ∃ r, c.encoder.lookup (slice piece p.1 p.2) = some r := by
      cases hx : c.encoder.lookup (slice piece p.1 p.2) with
      | none => rw [hx] at hsome; simp at hsome
      | some r => exact ⟨r, rfl⟩
    obtain ⟨ts, hts, hdec⟩ := ih (fun q hq => hfacts q (List.mem_cons_of_mem p hq))
    refine ⟨r :: ts, ?_, ?_⟩
    · rw [List.mapM_cons, hr, hts]
      rfl
    · rw [ordDecode_cons, hinv (slice piece p.1 p.2) r hr, hdec]
      rfl

/-- Round trip of one piece through the hit-or-merge path of the encode
loops: the produced tokens exist and decode (through the ordinary
decoder) back to the piece. -/
theorem piece_encode_some (c : CoreBPE)
    (hcover : ∀ b : Nat, b < 256 → (c.encoder.lookup [b]).isSome)
    (hinv : ∀ (k : Bytes) (r : Nat), c.encoder.lookup k = some r → c.decoder.lookup r = some k)
    (piece : Bytes) (hbytes : ∀ b ∈ piece, b < 256) :
    ∃ ts : List Nat,
      (match c.encoder.lookup piece with
        | some t => some [t]
        | none => byte_pair_encode piece c.encoder) = some ts ∧
      ordDecode c ts = some piece := by
  cases hhit : c.encoder.lookup piece with
  | some t =>
    refine ⟨[t], rfl, ?_⟩
    rw [ordDecode_cons, hinv piece t hhit]
    simp [ordDecode]
  | none =>
    unfold byte_pair_encode
    by_cases hlen : piece.length = 1
    · rw [if_pos hlen]
      obtain ⟨b, hb⟩ := List.length_eq_one.mp hlen
      subst hb
      have hsome := hcover b (hbytes b (List.mem_cons_self b []))
      obtain ⟨r, hr⟩ : ∃ r, c.encoder.lookup [b] = some r := by
        cases hx : c.encoder.lookup [b] with
        | none => rw [hx] at hsome; simp at hsome
        | some r => exact ⟨r, rfl⟩
      refine ⟨[r], by rw [hr]; rfl, ?_⟩
      rw [ordDecode_cons, hinv [b] r hr]
      rfl
    · rw [if_neg hlen]
      obtain ⟨ts, hts, hdec⟩ := ranges_encode_decode c hcover hinv piece hbytes
        (bytePairMergeRanges piece c.encoder) (ranges_facts piece c.encoder)
      refine ⟨ts, hts, ?_⟩
      rw [hdec, bpmr_flatten]

/-- The piece loop round-trips: it succeeds, appends tokens that decode
back to the concatenation of the pieces, and its `last_piece_token_len`
is the previous one on an empty piece list and otherwise at most the
number of appended tokens. -/
theorem encodePiecesGo_spec (c : CoreBPE)
    (hcover : ∀ b : Nat, b < 256 → (c.encoder.lookup [b]).isSome)
    (hinv : ∀ (k : Bytes) (r : Nat), c.encoder.lookup k = some r → c.decoder.lookup r = some k) :
    ∀ (pieces : List Bytes), (∀ piece ∈ pieces, ∀ b ∈ piece, b < 256) →
    ∀ (ret0 : List Nat) (l0 : Nat),
      ∃ (out : List Nat) (lastLen : Nat),
        encodePiecesGo c pieces (ret0, l0) = some (ret0 ++ out, lastLen) ∧
        ordDecode c out = some pieces.flatten ∧
        (pieces = [] → out = [] ∧ lastLen = l0) ∧
        (pieces ≠ [] → lastLen ≤ out.length) := by
  intro pieces
  induction pieces with
  | nil =>
    intro _ ret0 l0
    refine ⟨[], l0, ?_, rfl, fun _ => ⟨rfl, rfl⟩, fun h => absurd rfl h⟩
    show some (ret0, l0) = some (ret0 ++ [], l0)
    rw [List.append_nil]
  | cons piece rest ih =>
    intro hbytes ret0 l0
    obtain ⟨ts, hts, hdec⟩ := piece_encode_some c hcover hinv piece
      (hbytes piece (List.mem_cons_self piece rest))
    obtain ⟨out', last', hgo, hdec', hnil', hne'⟩ := ih
      (fun q hq => hbytes q (List.mem_cons_of_mem piece hq)) (ret0 ++ ts) ts.length
    refine ⟨ts ++ out', last', ?_, ?_, ?_, ?_⟩
    · show (match c.encoder.lookup piece with
        | some t => encodePiecesGo c rest (ret0 ++ [t], 1)
        | none =>
          match byte_pair_encode piece c.encoder with
          | some ts => encodePiecesGo c rest (ret0 ++ ts, ts.length)
          | none => none) = some (ret0 ++ (ts ++ out'), last')
      cases hhit : c.encoder.lookup piece with
      | some t =>
        rw [hhit] at hts
        have hts' : some [t] = some ts := hts
        injection hts' with hts'
        show encodePiecesGo c rest (ret0 ++ [t], 1) = some (ret0 ++ (ts ++ out'), last')
        rw [← hts']
        rw [← hts'] at hgo
        rw [← List.append_assoc]
        exact hgo
      | none =>
        rw [hhit] at hts
        have hts' : byte_pair_encode piece c.encoder = some ts := hts
        show (match byte_pair_encode piece c.encoder with
          | some ts => encodePiecesGo c rest (ret0 ++ ts, ts.length)
          | none => none) = some (ret0 ++ (ts ++ out'), last')
        rw [hts']
        rw [← List.append_assoc]
        exact hgo
    · exact ordDecode_append hdec hdec'
    · intro h
      exact absurd h (by simp)
    · intro _
      by_cases hrest : rest = []
      · obtain ⟨ho, hl⟩ := hnil' hrest
        rw [ho, hl]
        simp
      · have hle := hne' hrest
        simp only [List.length_append]
        omega

/-- `_encode_ordinary_native` round-trips: under total byte coverage and
the decoder-inverse property, it succeeds and its tokens decode back to
the concatenation of the split pieces. -/
theorem encodeOrdinary_roundtrip (c : CoreBPE) (split : Bytes → List Bytes)
    (hcover : ∀ b : Nat, b < 256 → (c.encoder.lookup [b]).isSome)
    (hinv : ∀ (k : Bytes) (r : Nat), c.encoder.lookup k = some r → c.decoder.lookup r = some k)
    (text : Bytes) (hbytes : ∀ piece ∈ split text, ∀ b ∈ piece, b < 256) :
    ∃ ts : List Nat, encodeOrdinaryNative c split text = some ts ∧
      ordDecode c ts = some (split text).flatten := by
  obtain ⟨out, lastLen, hgo, hdec, _, _⟩ :=
    encodePiecesGo_spec c hcover hinv (split text) hbytes [] 0
  refine ⟨out, ?_, hdec⟩
  unfold encodeOrdinaryNative
  rw [hgo]
  rfl

/-- With no special-token match anywhere in the text, `_encode_native`
makes a single pass over the whole text's pieces and stops. -/
theorem encodeNative_no_special (c : CoreBPE) (split : Bytes → List Bytes)
    (findSpecial : Bytes → Nat → Option (Nat × Nat)) (text : Bytes)
    (hns : findSpecial text 0 = none) :
    encodeNative c split findSpecial text = encodePiecesGo c (split text) ([], 0) := by
  show encodeNativeGo c split findSpecial text (text.length + 1) 0 ([], 0) = _
  show (let nextSpecial := findSpecial text 0
    let e := match nextSpecial with
      | none => text.length
      | some m => m.1
    match encodePiecesGo c (split (slice text 0 e)) ([], 0) with
    | none => none
    | some acc' =>
      match nextSpecial with
      | some m =>
        match c.specialTokensEncoder.lookup (slice text m.1 m.2) with
        | some t => encodeNativeGo c split findSpecial text text.length m.2 (acc'.1 ++ [t], 0)
        | none => none
      | none => some acc') = _
  rw [hns]
  simp only
  rw [show slice text 0 text.length = text from slice_zero_length text]
  cases h : encodePiecesGo c (split text) ([], 0) with
  | none => rfl
  | some acc' => rfl

/-- C1: for a codec whose vocabulary covers every single byte 0–255 and
whose decoder inverts its encoder (as construction guarantees, see
`coreBPE_new_inverse`), and a text in which the special-token pattern
finds no occurrence, encoding succeeds and decoding the produced rank
sequence yields exactly the original text's bytes.  The segmentation
regex is abstracted by `split`; the hypothesis `hsplit` states the fact
(true of the tiktoken segmentation patterns) that its matched pieces
concatenate back to the text. -/
theorem C1_roundtrip (c : CoreBPE) (split : Bytes → List Bytes)
    (findSpecial : Bytes → Nat → Option (Nat × Nat)) (text : Bytes)
    (hcover : ∀ b : Nat, b < 256 → (c.encoder.lookup [b]).isSome)
    (hinv : ∀ (k : Bytes) (r : Nat), c.encoder.lookup k = some r → c.decoder.lookup r = some k)
    (hsplit : (split text).flatten = text)
    (htext : ∀ b ∈ text, b < 256)
    (hns : findSpecial text 0 = none) :
    ∃ toks : List Nat, encode c split findSpecial text = some toks ∧
      decodeNative c toks = some text := by
  have hbytes : ∀ piece ∈ split text, ∀ b ∈ piece, b < 256 := by
    intro piece hpiece b hb
    refine htext b ?_
    rw [← hsplit]
    exact List.mem_flatten.mpr ⟨piece, hpiece, hb⟩
  obtain ⟨out, lastLen, hgo, hdec, _, _⟩ :=
    encodePiecesGo_spec c hcover hinv (split text) hbytes [] 0
  refine ⟨[] ++ out, ?_, ?_⟩
  · unfold encode
    rw [encodeNative_no_special c split findSpecial text hns, hgo]
    rfl
  · rw [hsplit] at hdec
    exact decodeNative_of_ordDecode (show ordDecode c ([] ++ out) = some text from hdec)

/-- The byte-identity vocabulary: every single byte value 0–255 mapped to
itself as rank. -/
def byteTable : RankTable := (List.range 256).map (fun b => ([b], b))

theorem byteTable_ranks_nodup : (byteTable.map Prod.snd).Nodup := by
  have h : byteTable.map Prod.snd = List.range 256 := by
    unfold byteTable
    rw [List.map_map]
    exact List.map_id _
  rw [h]
  exact List.nodup_range 256

theorem byteTable_keys_nodup : (byteTable.map Prod.fst).Nodup := by
  have h : byteTable.map Prod.fst = (List.range 256).map (fun b => [b]) := by
    unfold byteTable
    rw [List.map_map]
    rfl
  rw [h]
  refine List.Nodup.map ?_ (List.nodup_range 256)
  intro x y hxy
  injection hxy

theorem byteTable_cover : ∀ b : Nat, b < 256 → (byteTable.lookup [b]).isSome := by
  intro b hb
  have hmem : ([b], b) ∈ byteTable :=
    List.mem_map.mpr ⟨b, List.mem_range.mpr hb, rfl⟩
  rw [lookup_of_mem_nodup byteTable_keys_nodup hmem]
  rfl

/-- The byte-identity codec (its decoder is the inverse of `byteTable`). -/
def byteCodec : CoreBPE :=
  ⟨byteTable, [], byteTable.map (fun kv => (kv.2, kv.1)), [], []⟩

theorem byteCodec_inv :
    ∀ (k : Bytes) (r : Nat), byteCodec.encoder.lookup k = some r →
      byteCodec.decoder.lookup r = some k :=
  fun _ _ h => lookup_swap byteTable_ranks_nodup (lookup_mem h)

/-- Witness for C1: the byte-identity codec round-trips the text "hi"
(with the trivial single-piece splitter and no special matches). -/
theorem C1_witness :
    ∃ toks : List Nat,
      encode byteCodec (fun t => if t = [] then [] else [t]) (fun _ _ => none) [104, 105] =
        some toks ∧
      decodeNative byteCodec toks = some [104, 105] :=
  C1_roundtrip byteCodec (fun t => if t = [] then [] else [t]) (fun _ _ => none) [104, 105]
    byteTable_cover byteCodec_inv (by simp) (by decide) rfl

theorem lookup_isSome_of_mem {α β : Type} [BEq α] [LawfulBEq α] {t : List (α × β)} {k : α}
    {v : β} (h : (k, v) ∈ t) : (t.lookup k).isSome = true := by
  induction t with
  | nil => simp at h
  | cons kv rest ih =>
    rw [show kv = (kv.1, kv.2) from rfl, List.lookup_cons]
    cases hbe : (k == kv.1) with
    | true => rfl
    | false =>
      rcases List.mem_cons.mp h with heq | hmem
    
      · have : k = kv.1 := congrArg Prod.fst heq
        rw [this, beq_self_eq_true] at hbe
        cases hbe
      · exact ih hmem

theorem ordDecode_some_of_forall {c : CoreBPE} : ∀ {xs : List Nat},
    (∀ t ∈ xs, (c.decoder.lookup t).isSome = true) →
    ∃ bs : Bytes, ordDecode c xs = some bs := by
  intro xs
  induction xs with
  | nil => intro _; exact ⟨[], rfl⟩
  | cons t ts ih =>
    intro h
    obtain ⟨bs, hbs⟩ := ih (fun u hu => h u (List.mem_cons_of_mem t hu))
    have ht := h t (List.mem_cons_self t ts)
    cases hd : c.decoder.lookup t with
    | none => rw [hd] at ht; simp at ht
    | some b =>
      refine ⟨b ++ bs, ?_⟩
      rw [ordDecode_cons, hd, hbs]
      rfl

theorem ordDecode_forall_of_some {c : CoreBPE} : ∀ {xs : List Nat} {bs : Bytes},
    ordDecode c xs = some bs → ∀ t ∈ xs, (c.decoder.lookup t).isSome = true := by
  intro xs
  induction xs with
  | nil => intro bs _ t ht; simp at ht
  | cons u ts ih =>
    intro bs h t ht
    rw [ordDecode_cons] at h
    cases hd : c.decoder.lookup u with
    | none => rw [hd] at h; simp at h
    | some b =>
      rcases List.mem_cons.mp ht with heq | hmem
      · rw [heq, hd]
        rfl
      · rw [hd] at h
        cases hts : ordDecode c ts with
        | none => rw [hts] at h; simp at h
        | some bts => exact ih hts t hmem

theorem decodeNative_some_of_forall {c : CoreBPE} : ∀ {xs : List Nat},
    (∀ t ∈ xs, resolveToken c t ≠ none) → ∃ bs : Bytes, decodeNative c xs = some bs := by
  intro xs
  induction xs with
  | nil => intro _; exact ⟨[], rfl⟩
  | cons t ts ih =>
    intro h
    obtain ⟨bs, hbs⟩ := ih (fun u hu => h u (List.mem_cons_of_mem t hu))
    have ht := h t (List.mem_cons_self t ts)
    cases hr : resolveToken c t with
    | none => exact absurd hr ht
    | some b =>
      refine ⟨b ++ bs, ?_⟩
      rw [decodeNative_cons, hr, hbs]
      rfl

theorem decodeNative_forall_of_some {c : CoreBPE} : ∀ {xs : List Nat} {bs : Bytes},
    decodeNative c xs = some bs → ∀ t ∈ xs, resolveToken c t ≠ none := by
  intro xs
  induction xs with
  | nil => intro bs _ t ht; simp at ht
  | cons u ts ih =>
    intro bs h t ht
    rw [decodeNative_cons] at h
    cases hr : resolveToken c u with
    | none => rw [hr] at h; simp at h
    | some b =>
      rcases List.mem_cons.mp ht with heq | hmem
      · rw [heq, hr]
        simp
      · rw [hr] at h
        cases hts : decodeNative c ts with
        | none => rw [hts] at h; simp at h
        | some bts => exact ih hts t hmem

theorem mapM_mem {α β : Type} {f : α → Option β} : ∀ {xs : List α} {ys : List β},
    xs.mapM f = some ys → ∀ y ∈ ys, ∃ x ∈ xs, f x = some y := by
  intro xs
  induction xs with
  | nil =>
    intro ys h y hy
    rw [List.mapM_nil] at h
    simp only [Option.pure_def, Option.some.injEq] at h
    rw [← h] at hy
    simp at hy
  | cons x xs ih =>
    intro ys h y hy
    rw [List.mapM_cons] at h
    cases hx : f x with
    | none => rw [hx] at h; simp at h
    | some b =>
      rw [hx] at h
      cases hxs : xs.mapM f with
      | none => rw [hxs] at h; simp at h
      | some bs =>
        rw [hxs] at h
        simp at h
        rw [← h] at hy
        rcases List.mem_cons.mp hy with heq | hmem
        · exact ⟨x, List.mem_cons_self x xs, by rw [hx, heq]⟩
        · obtain ⟨x', hx', hfx'⟩ := ih hxs y hmem
          exact ⟨x', List.mem_cons_of_mem x hx', hfx'⟩

theorem mapM_some_of_forall {α β : Type} {f : α → Option β} : ∀ {xs : List α},
    (∀ x ∈ xs, (f x).isSome = true) → ∃ ys : List β, xs.mapM f = some ys := by
  intro xs
  induction xs with
  | nil => intro _; exact ⟨[], by rw [List.mapM_nil]; rfl⟩
  | cons x xs ih =>
    intro h
    obtain ⟨ys, hys⟩ := ih (fun u hu => h u (List.mem_cons_of_mem x hu))
    have hx := h x (List.mem_cons_self x xs)
    cases hfx : f x with
    | none => rw [hfx] at hx; simp at hx
    | some b =>
      refine ⟨b :: ys, ?_⟩
      rw [List.mapM_cons, hfx, hys]
      rfl

/-- `byte_pair_encode` round-trips on any piece of covered bytes: it
succeeds and its tokens decode (ordinary decoder) back to the piece. -/
theorem bpe_roundtrip (c : CoreBPE)
    (hcover : ∀ b : Nat, b < 256 → (c.encoder.lookup [b]).isSome)
    (hinv : ∀ (k : Bytes) (r : Nat), c.encoder.lookup k = some r → c.decoder.lookup r = some k)
    (piece : Bytes) (hbytes : ∀ b ∈ piece, b < 256) :
    ∃ ts : List Nat, byte_pair_encode piece c.encoder = some ts ∧
      ordDecode c ts = some piece := by
  unfold byte_pair_encode
  by_cases hlen : piece.length = 1
  · rw [if_pos hlen]
    obtain ⟨b, hb⟩ := List.length_eq_one.mp hlen
    subst hb
    have hsome := hcover b (hbytes b (List.mem_cons_self b []))
    obtain ⟨r, hr⟩ : ∃ r, c.encoder.lookup [b] = some r := by
      cases hx : c.encoder.lookup [b] with
      | none => rw [hx] at hsome; simp at hsome
      | some r => exact ⟨r, rfl⟩
    refine ⟨[r], by rw [hr]; rfl, ?_⟩
    rw [ordDecode_cons, hinv [b] r hr]
    rfl
  · rw [if_neg hlen]
    obtain ⟨ts, hts, hdec⟩ := ranges_encode_decode c hcover hinv piece hbytes
      (bytePairMergeRanges piece c.encoder) (ranges_facts piece c.encoder)
    refine ⟨ts, hts, ?_⟩
    rw [hdec, bpmr_flatten]

theorem truncGo_cons (c : CoreBPE) (target acc t : Nat) (ts : List Nat) :
    truncGo c target acc (t :: ts) =
      match c.decoder.lookup t with
      | none => none
      | some b =>
        if target ≤ acc + b.length then some [t]
        else (truncGo c target (acc + b.length) ts).map (fun rest => t :: rest) := rfl

/-- The truncation loop keeps a leading run of the encoded tokens whose
ordinary decoding is a prefix of the full decoding, long enough to reach
the target length unless the whole token list is kept. -/
theorem truncGo_spec (c : CoreBPE) (target : Nat) :
    ∀ (ts : List Nat) (P : Bytes), ordDecode c ts = some P →
    ∀ acc : Nat, ∃ (seq : List Nat) (Q : Bytes), truncGo c target acc ts = some seq ∧
      ordDecode c seq = some Q ∧ Q <+: P ∧ (target ≤ acc + Q.length ∨ seq = ts) := by
  intro ts
  induction ts with
  | nil =>
    intro P hP acc
    exact ⟨[], [], rfl, rfl, List.nil_prefix, Or.inr rfl⟩
  | cons t ts ih =>
    intro P hP acc
    rw [ordDecode_cons] at hP
    cases hd : c.decoder.lookup t with
    | none => rw [hd] at hP; simp at hP
    | some b =>
      rw [hd] at hP
      cases hts : ordDecode c ts with
      | none => rw [hts] at hP; simp at hP
      | some bts =>
        rw [hts] at hP
        simp at hP
        rw [truncGo_cons, hd]
        dsimp only
        by_cases hcut : target ≤ acc + b.length
        · rw [if_pos hcut]
          refine ⟨[t], b, rfl, ?_, ⟨bts, hP⟩, Or.inl (by omega)⟩
          rw [ordDecode_cons, hd]
          simp [ordDecode]
        · rw [if_neg hcut]
          obtain ⟨seq', Q', hseq', hQ', hpre', hdisj'⟩ := ih bts hts (acc + b.length)
          refine ⟨t :: seq', b ++ Q', by rw [hseq']; rfl, ?_, ?_, ?_⟩
          · rw [ordDecode_cons, hd, hQ']
            rfl
          · rw [← hP]
            exact (List.prefix_append_right_inj b).mpr hpre'
          · rcases hdisj' with hx | hx
            · left
              rw [List.length_append]
              omega
            · right
              rw [hx]

theorem increaseGo_spec (c : CoreBPE) (tokens : List Nat) : ∀ (fuel l : Nat),
    l ≤ increaseGo c tokens fuel l ∧
    (l ≤ tokens.length → increaseGo c tokens fuel l ≤ tokens.length) ∧
    (∀ j : Nat, l ≤ j → j < increaseGo c tokens fuel l →
      tokenIsAllSpace c (tokens.getD (tokens.length - j - 1) 0) = true) := by
  intro fuel
  induction fuel with
  | zero =>
    intro l
    refine ⟨le_refl _, fun h => h, ?_⟩
    intro j h1 h2
    simp only [increaseGo] at h2
    omega
  | succ f ih =>
    intro l
    simp only [increaseGo]
    by_cases h1 : l < tokens.length
    · rw [if_pos h1]
      by_cases h2 : tokenIsAllSpace c (tokens.getD (tokens.length - l - 1) 0) = true
      · rw [if_pos h2]
        obtain ⟨ha, hb, hc⟩ := ih (l + 1)
        refine ⟨by omega, fun _ => hb (by omega), ?_⟩
        intro j hj1 hj2
        by_cases hj : l + 1 ≤ j
        · exact hc j hj hj2
        · rw [show j = l by omega]
          exact h2
      · rw [if_neg h2]
        exact ⟨le_refl _, fun h => h, fun j hj1 hj2 => by omega⟩
    · rw [if_neg h1]
      exact ⟨le_refl _, fun h => h, fun j hj1 hj2 => by omega⟩

/-- `_increase_last_piece_token_len` succeeds on a positive in-bounds
length, does not shrink it, keeps it in bounds, and every token in the
extended trailing range is still ordinary-decodable (the extension only
covers all-whitespace tokens, which the ordinary decoder knows). -/
theorem increase_spec (c : CoreBPE) (tokens : List Nat) (lastLen : Nat)
    (h1 : 1 ≤ lastLen) (h2 : lastLen ≤ tokens.length)
    (hsuf : ∀ t ∈ tokens.drop (tokens.length - lastLen), (c.decoder.lookup t).isSome = true) :
    ∃ lastLen' : Nat, increaseLastPieceTokenLen c tokens lastLen = some (tokens, lastLen') ∧
      lastLen ≤ lastLen' ∧ lastLen' ≤ tokens.length ∧
      ∀ t ∈ tokens.drop (tokens.length - lastLen'), (c.decoder.lookup t).isSome = true := by
  unfold increaseLastPieceTokenLen
  rw [if_pos (show 0 < lastLen by omega), if_pos h2]
  by_cases hsp : tokenIsAllSpace c (tokens.getD (tokens.length - lastLen) 0) = true
  · rw [if_pos hsp]
    obtain ⟨ha, hb, hc⟩ := increaseGo_spec c tokens tokens.length lastLen
    refine ⟨increaseGo c tokens tokens.length lastLen, rfl, ha, hb h2, ?_⟩
    intro t ht
    obtain ⟨i, hi⟩ := List.mem_iff_getElem?.mp ht
    rw [List.getElem?_drop] at hi
    set l' := increaseGo c tokens tokens.length lastLen with hl'
    have hl'le : l' ≤ tokens.length := hb h2
    have hlt : tokens.length - l' + i < tokens.length := by
      rcases List.getElem?_eq_some.mp hi with ⟨hbound, _⟩
      exact hbound
    by_cases hpos : tokens.length - lastLen ≤ tokens.length - l' + i
    · apply hsuf
      apply List.mem_iff_getElem?.mpr
      refine ⟨tokens.length - l' + i - (tokens.length - lastLen), ?_⟩
      rw [List.getElem?_drop]
      rw [show tokens.length - lastLen +
        (tokens.length - l' + i - (tokens.length - lastLen)) = tokens.length - l' + i by omega]
      exact hi
    · have hj := hc (tokens.length - (tokens.length - l' + i) - 1) (by omega) (by omega)
      rw [show tokens.length - (tokens.length - (tokens.length - l' + i) - 1) - 1 =
        tokens.length - l' + i by omega] at hj
      have hgd : tokens.getD (tokens.length - l' + i) 0 = t := by
        rw [List.getD_eq_getElem?_getD, hi]
        rfl
      rw [hgd] at hj
      unfold tokenIsAllSpace at hj
      cases hd : c.decoder.lookup t with
      | none =>
        rw [hd] at hj
        cases hj
      | some b => rfl
  · rw [if_neg hsp]
    exact ⟨lastLen, rfl, le_refl _, h2, hsuf⟩

theorem ordDecode_bytes_lt (c : CoreBPE)
    (hinv2 : ∀ (r : Nat) (k : Bytes), c.decoder.lookup r = some k → c.encoder.lookup k = some r)
    (hkeybytes : ∀ kv ∈ c.encoder, ∀ b ∈ kv.1, b < 256) :
    ∀ {xs : List Nat} {bs : Bytes}, ordDecode c xs = some bs → ∀ b ∈ bs, b < 256 := by
  intro xs
  induction xs with
  | nil =>
    intro bs h b hb
    simp only [ordDecode] at h
    injection h with h
    rw [← h] at hb
    simp at hb
  | cons t ts ih =>
    intro bs h b hb
    rw [ordDecode_cons] at h
    cases hd : c.decoder.lookup t with
    | none => rw [hd] at h; simp at h
    | some k =>
      rw [hd] at h
      cases hts : ordDecode c ts with
      | none => rw [hts] at h; simp at h
      | some bts =>
        rw [hts] at h
        simp at h
        rw [← h] at hb
        rcases List.mem_append.mp hb with hbk | hbt
        · exact hkeybytes (k, t) (lookup_mem (hinv2 t k hd)) b hbk
        · exact ih hts b hbt

theorem mem_slice {text : Bytes} {a e b : Nat} (h : b ∈ slice text a e) : b ∈ text :=
  List.mem_of_mem_drop (List.mem_of_mem_take h)

/-- `_encode_native`'s loop succeeds and maintains its decoding
invariants: the produced token list decodes (ordinary decoder with
special fallback), and the trailing `last_piece_token_len` tokens form a
suffix every token of which the ordinary decoder knows.  Fuel above
`text.length - start` suffices because every special match is nonempty
and in bounds. -/
theorem encodeNativeGo_spec (c : CoreBPE) (split : Bytes → List Bytes)
    (findSpecial : Bytes → Nat → Option (Nat × Nat)) (text : Bytes)
    (hcover : ∀ b : Nat, b < 256 → (c.encoder.lookup [b]).isSome)
    (hinv : ∀ (k : Bytes) (r : Nat), c.encoder.lookup k = some r → c.decoder.lookup r = some k)
    (hsplitall : ∀ s : Bytes, (split s).flatten = s)
    (htext : ∀ b ∈ text, b < 256)
    (hsd : c.specialTokensDecoder = c.specialTokensEncoder.map (fun kv => (kv.2, kv.1)))
    (hfs : ∀ (pos s e : Nat), findSpecial text pos = some (s, e) →
      pos ≤ s ∧ s < e ∧ e ≤ text.length ∧
      (c.specialTokensEncoder.lookup (slice text s e)).isSome = true) :
    ∀ (fuel start : Nat) (ret0 : List Nat) (l0 : Nat) (d0 : Bytes),
      text.length - start < fuel →
      decodeNative c ret0 = some d0 →
      (∃ pre suf : List Nat, ret0 = pre ++ suf ∧ suf.length = l0 ∧
        ∀ t ∈ suf, (c.decoder.lookup t).isSome = true) →
      ∃ (toks : List Nat) (lastLen : Nat) (d : Bytes),
        encodeNativeGo c split findSpecial text fuel start (ret0, l0) = some (toks, lastLen) ∧
        decodeNative c toks = some d ∧
        (∃ pre suf : List Nat, toks = pre ++ suf ∧ suf.length = lastLen ∧
          ∀ t ∈ suf, (c.decoder.lookup t).isSome = true) := by
  intro fuel
  induction fuel with
  | zero =>
    intro start ret0 l0 d0 hfuel
    omega
  | succ f ih =>
    intro start ret0 l0 d0 hfuel hd0 hsplit0
    cases hns : findSpecial text start with
    | none =>
      have hbytes : ∀ piece ∈ split (slice text start text.length), ∀ b ∈ piece, b < 256 := by
        intro piece hp b hb
        have hbs : b ∈ slice text start text.length := by
          rw [← hsplitall (slice text start text.length)]
          exact List.mem_flatten.mpr ⟨piece, hp, hb⟩
        exact htext b (mem_slice hbs)
      obtain ⟨out, last', hgo, hdec, hemp, hne⟩ :=
        encodePiecesGo_spec c hcover hinv (split (slice text start text.length)) hbytes ret0 l0
      have hstep : encodeNativeGo c split findSpecial text (f + 1) start (ret0, l0) =
          some (ret0 ++ out, last') := by
        show (match encodePiecesGo c (split (slice text start
            (match findSpecial text start with
              | none => text.length
              | some m => m.1))) (ret0, l0) with
          | none => none
          | some acc' =>
            match findSpecial text start with
            | some m =>
              match c.specialTokensEncoder.lookup (slice text m.1 m.2) with
              | some t => encodeNativeGo c split findSpecial text f m.2 (acc'.1 ++ [t], 0)
              | none => none
            | none => some acc') = some (ret0 ++ out, last')
        rw [hns]
        dsimp only
        rw [hgo]
      obtain ⟨dout, hdout⟩ : ∃ dout, ordDecode c out = some dout := ⟨_, hdec⟩
      have hdall : decodeNative c (ret0 ++ out) = some (d0 ++ dout) :=
        decodeNative_append hd0 (decodeNative_of_ordDecode hdout)
      refine ⟨ret0 ++ out, last', d0 ++ dout, hstep, hdall, ?_⟩
      by_cases hpieces : split (slice text start text.length) = []
      · obtain ⟨ho, hl⟩ := hemp hpieces
        obtain ⟨pre0, suf0, hps, hlen0, hdec0⟩ := hsplit0
        refine ⟨pre0, suf0, ?_, by omega, hdec0⟩
        rw [ho, List.append_nil]
        exact hps
      · have hle := hne hpieces
        refine ⟨ret0 ++ out.take (out.length - last'), out.drop (out.length - last'), ?_, ?_, ?_⟩
        · rw [List.append_assoc, List.take_append_drop]
        · rw [List.length_drop]
          omega
        · intro t ht
          exact ordDecode_forall_of_some hdout t (List.mem_of_mem_drop ht)
    | some m =>
      obtain ⟨hms, hlt, hmle, hspec⟩ := hfs start m.1 m.2 (by rw [hns])
      have hbytes : ∀ piece ∈ split (slice text start m.1), ∀ b ∈ piece, b < 256 := by
        intro piece hp b hb
        have hbs : b ∈ slice text start m.1 := by
          rw [← hsplitall (slice text start m.1)]
          exact List.mem_flatten.mpr ⟨piece, hp, hb⟩
        exact htext b (mem_slice hbs)
      obtain ⟨out, last', hgo, hdec, hemp, hne⟩ :=
        encodePiecesGo_spec c hcover hinv (split (slice text start m.1)) hbytes ret0 l0
      obtain ⟨t, ht⟩ : ∃ t, c.specialTokensEncoder.lookup (slice text m.1 m.2) = some t := by
        cases hx : c.specialTokensEncoder.lookup (slice text m.1 m.2) with
        | none => rw [hx] at hspec; simp at hspec
        | some t => exact ⟨t, rfl⟩
      have hstep : encodeNativeGo c split findSpecial text (f + 1) start (ret0, l0) =
          encodeNativeGo c split findSpecial text f m.2 ((ret0 ++ out) ++ [t], 0) := by
        show (match encodePiecesGo c (split (slice text start
            (match findSpecial text start with
              | none => text.length
              | some m => m.1))) (ret0, l0) with
          | none => none
          | some acc' =>
            match findSpecial text start with
            | some m =>
              match c.specialTokensEncoder.lookup (slice text m.1 m.2) with
              | some t => encodeNativeGo c split findSpecial text f m.2 (acc'.1 ++ [t], 0)
              | none => none
            | none => some acc') = _
        rw [hns]
        dsimp only
        rw [hgo]
        dsimp only
        rw [ht]
      obtain ⟨dout, hdout⟩ : ∃ dout, ordDecode c out = some dout := ⟨_, hdec⟩
      have hmid : decodeNative c (ret0 ++ out) = some (d0 ++ dout) :=
        decodeNative_append hd0 (decodeNative_of_ordDecode hdout)
      have hres : resolveToken c t ≠ none := by
        have hmem : ((slice text m.1 m.2), t) ∈ c.specialTokensEncoder := lookup_mem ht
        have hmem2 : (t, slice text m.1 m.2) ∈ c.specialTokensDecoder := by
          rw [hsd]
          exact List.mem_map.mpr ⟨(slice text m.1 m.2, t), hmem, rfl⟩
        have hs2 := lookup_isSome_of_mem hmem2
        unfold resolveToken
        cases hd : c.decoder.lookup t with
        | some b => simp
        | none =>
          cases hx : c.specialTokensDecoder.lookup t with
          | none => rw [hx] at hs2; simp at hs2
          | some b => simp
      obtain ⟨dt, hdt⟩ : ∃ dt, decodeNative c [t] = some dt :=
        decodeNative_some_of_forall (by
          intro u hu
          rw [show u = t from by simpa using hu]
          exact hres)
      have hd1 : decodeNative c ((ret0 ++ out) ++ [t]) = some ((d0 ++ dout) ++ dt) :=
        decodeNative_append hmid hdt
      have hfuel' : text.length - m.2 < f := by omega
      obtain ⟨toks, lastLen, d, hgo', hdec', hform'⟩ :=
        ih m.2 ((ret0 ++ out) ++ [t]) 0 ((d0 ++ dout) ++ dt) hfuel' hd1
          ⟨(ret0 ++ out) ++ [t], [], by rw [List.append_nil], rfl, by intro u hu; simp at hu⟩
      refine ⟨toks, lastLen, d, ?_, hdec', hform'⟩
      rw [hstep]
      exact hgo'

/-- Every direct-prefix completion decodes to a vocabulary entry that
extends the unstable bytes. -/
theorem directComps_spec (c : CoreBPE)
    (hinv : ∀ (k : Bytes) (r : Nat), c.encoder.lookup k = some r → c.decoder.lookup r = some k)
    (hsorted : ∀ x ∈ c.sortedTokenBytes, (c.encoder.lookup x).isSome = true)
    (u : Bytes) :
    ∃ comps1 : List (List Nat), directComps c u = some comps1 ∧
      ∀ comp ∈ comps1, ∃ dc : Bytes, decodeNative c comp = some dc ∧ u <+: dc := by
  unfold directComps
  have hmemsorted : ∀ x ∈ (c.sortedTokenBytes.drop
      (partitionPoint c.sortedTokenBytes (fun x => bytesLt x u))).takeWhile
        (fun x => u.isPrefixOf x), x ∈ c.sortedTokenBytes := by
    intro x hx
    exact ((List.takeWhile_sublist _).trans (List.drop_sublist _ _)).mem hx
  obtain ⟨comps1, hcomps1⟩ :=
    @mapM_some_of_forall Bytes (List Nat)
      (fun x => (c.encoder.lookup x).map (fun r => [r]))
      ((c.sortedTokenBytes.drop
        (partitionPoint c.sortedTokenBytes (fun x => bytesLt x u))).takeWhile
          (fun x => u.isPrefixOf x))
      (by
        intro x hx
        have hs := hsorted x (hmemsorted x hx)
        cases hl : c.encoder.lookup x with
        | none => rw [hl] at hs; simp at hs
        | some r => simp [hl])
  refine ⟨comps1, hcomps1, ?_⟩
  intro comp hcomp
  obtain ⟨x, hx, hfx⟩ := mapM_mem hcomps1 comp hcomp
  obtain ⟨r, hr⟩ : ∃ r, c.encoder.lookup x = some r := by
    have hs := hsorted x (hmemsorted x hx)
    cases hl : c.encoder.lookup x with
    | none => rw [hl] at hs; simp at hs
    | some r => exact ⟨r, rfl⟩
  simp only [hr, Option.map_some', Option.some.injEq] at hfx
  have hdec : decodeNative c [r] = some x := by
    rw [decodeNative_cons]
    unfold resolveToken
    rw [hinv x r hr]
    simp [decodeNative]
  refine ⟨x, by rw [← hfx]; exact hdec, ?_⟩
  have hpred := List.mem_takeWhile_imp hx
  exact List.isPrefixOf_iff_prefix.mp hpred

/-- Every split-point completion decodes to a byte string extending the
unstable bytes. -/
theorem splitComps_spec (c : CoreBPE) (split : Bytes → List Bytes) (validUtf8 : Bytes → Bool)
    (hcover : ∀ b : Nat, b < 256 → (c.encoder.lookup [b]).isSome)
    (hinv : ∀ (k : Bytes) (r : Nat), c.encoder.lookup k = some r → c.decoder.lookup r = some k)
    (hsorted : ∀ x ∈ c.sortedTokenBytes, (c.encoder.lookup x).isSome = true)
    (hsplitall : ∀ s : Bytes, (split s).flatten = s)
    (hkeybytes : ∀ kv ∈ c.encoder, ∀ b ∈ kv.1, b < 256)
    (u : Bytes) (hub : ∀ b ∈ u, b < 256) :
    ∃ comps2 : List (List (List Nat)), splitComps c split validUtf8 u = some comps2 ∧
      ∀ inner ∈ comps2, ∀ comp ∈ inner, ∃ dc : Bytes,
        decodeNative c comp = some dc ∧ u <+: dc := by
  have hentry : ∀ (i : Nat) (entry : Bytes),
      entry ∈ (c.sortedTokenBytes.drop
        (partitionPoint c.sortedTokenBytes (fun x => bytesLt x (u.drop i)))).takeWhile
          (fun x => (u.drop i).isPrefixOf x) →
      entry ∈ c.sortedTokenBytes ∧ (u.drop i) <+: entry ∧ ∀ b ∈ entry, b < 256 := by
    intro i entry hx
    have hmem : entry ∈ c.sortedTokenBytes :=
      ((List.takeWhile_sublist _).trans (List.drop_sublist _ _)).mem hx
    have hpre := List.isPrefixOf_iff_prefix.mp (List.mem_takeWhile_imp hx)
    refine ⟨hmem, hpre, ?_⟩
    intro b hb
    have hs := hsorted entry hmem
    obtain ⟨r, hr⟩ : ∃ r, c.encoder.lookup entry = some r := by
      cases hl : c.encoder.lookup entry with
      | none => rw [hl] at hs; simp at hs
      | some r => exact ⟨r, rfl⟩
    exact hkeybytes (entry, r) (lookup_mem hr) b hb
  have hposs : ∀ (i : Nat) (entry : Bytes), (u.drop i) <+: entry → (∀ b ∈ entry, b < 256) →
      ∃ ts : List Nat,
        (if validUtf8 (u.take i ++ entry)
          then encodeOrdinaryNative c split (u.take i ++ entry)
          else byte_pair_encode (u.take i ++ entry) c.encoder) = some ts ∧
        ordDecode c ts = some (u.take i ++ entry) := by
    intro i entry hpre hbe
    have hbytes : ∀ b ∈ u.take i ++ entry, b < 256 := by
      intro b hb
      rcases List.mem_append.mp hb with h1 | h2
      · exact hub b (List.mem_of_mem_take h1)
      · exact hbe b h2
    by_cases hv : validUtf8 (u.take i ++ entry) = true
    · rw [if_pos hv]
      obtain ⟨ts, hts, hdec⟩ := encodeOrdinary_roundtrip c split hcover hinv (u.take i ++ entry)
        (by
          intro piece hp b hb
          refine hbytes b ?_
          rw [← hsplitall (u.take i ++ entry)]
          exact List.mem_flatten.mpr ⟨piece, hp, hb⟩)
      rw [hsplitall] at hdec
      exact ⟨ts, hts, hdec⟩
    · rw [if_neg hv]
      exact bpe_roundtrip c hcover hinv (u.take i ++ entry) hbytes
  obtain ⟨comps2, hcomps2⟩ := @mapM_some_of_forall Nat (List (List Nat))
    (fun i =>
      ((c.sortedTokenBytes.drop
        (partitionPoint c.sortedTokenBytes (fun x => bytesLt x (u.drop i)))).takeWhile
          (fun x => (u.drop i).isPrefixOf x)).mapM (fun entry =>
        match (if validUtf8 (u.take i ++ entry)
          then encodeOrdinaryNative c split (u.take i ++ entry)
          else byte_pair_encode (u.take i ++ entry) c.encoder) with
        | none => none
        | some encoded => truncGo c u.length 0 encoded))
    (List.range' 1 (u.length - 1))
    (by
      intro i hi
      dsimp only
      obtain ⟨inner, hinner⟩ := @mapM_some_of_forall Bytes (List Nat)
        (fun entry =>
          match (if validUtf8 (u.take i ++ entry)
            then encodeOrdinaryNative c split (u.take i ++ entry)
            else byte_pair_encode (u.take i ++ entry) c.encoder) with
          | none => none
          | some encoded => truncGo c u.length 0 encoded)
        ((c.sortedTokenBytes.drop
          (partitionPoint c.sortedTokenBytes (fun x => bytesLt x (u.drop i)))).takeWhile
            (fun x => (u.drop i).isPrefixOf x))
        (by
          intro entry hx
          dsimp only
          obtain ⟨hmem, hpre, hbe⟩ := hentry i entry hx
          obtain ⟨ts, hts, hdec⟩ := hposs i entry hpre hbe
          rw [hts]
          obtain ⟨seq, Q, htr, hQ1, hQ2, hQ3⟩ := truncGo_spec c u.length ts _ hdec 0
          dsimp only
          rw [htr]
          rfl)
      rw [hinner]
      rfl)
  refine ⟨comps2, ?_, ?_⟩
  · exact hcomps2
  · intro inner hinner comp hcomp
    obtain ⟨i, hi, hfi⟩ := mapM_mem hcomps2 inner hinner
    obtain ⟨entry, hx, hfe⟩ := mapM_mem hfi comp hcomp
    obtain ⟨hmem, hpre, hbe⟩ := hentry i entry hx
    obtain ⟨ts, hts, hdec⟩ := hposs i entry hpre hbe
    rw [hts] at hfe
    dsimp only at hfe
    obtain ⟨seq, Q, htr, hQ, hQpre, hdisj⟩ := truncGo_spec c u.length ts _ hdec 0
    rw [htr] at hfe
    injection hfe with hfe
    rw [← hfe]
    have hupre : u <+: u.take i ++ entry := by
      have h2 : u.take i ++ u.drop i <+: u.take i ++ entry :=
        (List.prefix_append_right_inj (u.take i)).mpr hpre
      rwa [List.take_append_drop] at h2
    refine ⟨Q, decodeNative_of_ordDecode hQ, ?_⟩
    rcases hdisj with hx1 | hx1
    · exact List.prefix_of_prefix_length_le hupre hQpre (by omega)
    · rw [hx1] at hQ
      rw [hQ] at hdec
      injection hdec with hdec
      rw [← hdec] at hupre
      exact hupre

/-- The whitespace-split patch's completion decodes to exactly the
unstable bytes. -/
theorem wsComps_spec (c : CoreBPE) (lastCharLen : Bytes → Nat) (lastCharIsWs : Bytes → Bool)
    (hcover : ∀ b : Nat, b < 256 → (c.encoder.lookup [b]).isSome)
    (hinv : ∀ (k : Bytes) (r : Nat), c.encoder.lookup k = some r → c.decoder.lookup r = some k)
    (u : Bytes) (hub : ∀ b ∈ u, b < 256) :
    ∃ comps3 : List (List Nat), wsComps c lastCharLen lastCharIsWs u = some comps3 ∧
      ∀ comp ∈ comps3, ∃ dc : Bytes, decodeNative c comp = some dc ∧ u <+: dc := by
  unfold wsComps
  by_cases h1 : 1 < u.length
  · rw [if_pos h1]
    by_cases h2 : 0 < u.length - lastCharLen u
    · rw [if_pos h2]
      by_cases h3 : lastCharIsWs u = true
      · rw [if_pos h3]
        obtain ⟨ut, hut, hutdec⟩ := bpe_roundtrip c hcover hinv
          (u.take (u.length - lastCharLen u))
          (fun b hb => hub b (List.mem_of_mem_take hb))
        obtain ⟨vt, hvt, hvtdec⟩ := bpe_roundtrip c hcover hinv
          (u.drop (u.length - lastCharLen u))
          (fun b hb => hub b (List.mem_of_mem_drop hb))
        rw [hut, hvt]
        refine ⟨[ut ++ vt], rfl, ?_⟩
        intro comp hcomp
        rw [show comp = ut ++ vt from by simpa using hcomp]
        have hdec : ordDecode c (ut ++ vt) = some u := by
          rw [ordDecode_append hutdec hvtdec, List.take_append_drop]
        exact ⟨u, decodeNative_of_ordDecode hdec, List.prefix_refl u⟩
      · rw [if_neg h3]
        exact ⟨[], rfl, by intro comp hcomp; simp at hcomp⟩
    · rw [if_neg h2]
      exact ⟨[], rfl, by intro comp hcomp; simp at hcomp⟩
  · rw [if_neg h1]
    exact ⟨[], rfl, by intro comp hcomp; simp at hcomp⟩

theorem decodeNative_append_inv {c : CoreBPE} : ∀ {xs ys : List Nat} {d : Bytes},
    decodeNative c (xs ++ ys) = some d →
    ∃ dx dy : Bytes, decodeNative c xs = some dx ∧ decodeNative c ys = some dy ∧
      d = dx ++ dy := by
  intro xs
  induction xs with
  | nil =>
    intro ys d h
    exact ⟨[], d, rfl, h, rfl⟩
  | cons t ts ih =>
    intro ys d h
    rw [List.cons_append, decodeNative_cons] at h
    cases hr : resolveToken c t with
    | none => rw [hr] at h; simp at h
    | some b =>
      rw [hr] at h
      cases hrest : decodeNative c (ts ++ ys) with
      | none => rw [hrest] at h; simp at h
      | some drest =>
        rw [hrest] at h
        simp only [Option.some_bind, Option.map_some', Option.some.injEq] at h
        obtain ⟨dx, dy, h1, h2, h3⟩ := ih hrest
        refine ⟨b ++ dx, dy, ?_, h2, ?_⟩
        · rw [decodeNative_cons, hr, h1]
          rfl
        · rw [← h, h3, List.append_assoc]

/-- C3: for every text over covered bytes (with consistent tables, a
faithful segmentation function and in-bounds special matches),
`_encode_unstable_native` succeeds and returns stable tokens and a
completion set such that the stable tokens' decoding concatenated with the
unstable bytes equals `decode(encode(text))` byte for byte, and for every
completion candidate the bytes `decode(stable) ++ decode(candidate)` have
`decode(stable) ++ unstable_bytes` as a byte prefix. -/
theorem C3_unstable_consistency (c : CoreBPE) (split : Bytes → List Bytes)
    (findSpecial : Bytes → Nat → Option (Nat × Nat)) (validUtf8 : Bytes → Bool)
    (lastCharLen : Bytes → Nat) (lastCharIsWs : Bytes → Bool) (text : Bytes)
    (hcover : ∀ b : Nat, b < 256 → (c.encoder.lookup [b]).isSome)
    (hinv : ∀ (k : Bytes) (r : Nat), c.encoder.lookup k = some r → c.decoder.lookup r = some k)
    (hsorted : ∀ x ∈ c.sortedTokenBytes, (c.encoder.lookup x).isSome = true)
    (hkeybytes : ∀ kv ∈ c.encoder, ∀ b ∈ kv.1, b < 256)
    (hinv2 : ∀ (r : Nat) (k : Bytes), c.decoder.lookup r = some k → c.encoder.lookup k = some r)
    (hsplitall : ∀ s : Bytes, (split s).flatten = s)
    (htext : ∀ b ∈ text, b < 256)
    (hsd : c.specialTokensDecoder = c.specialTokensEncoder.map (fun kv => (kv.2, kv.1)))
    (hfs : ∀ (pos s e : Nat), findSpecial text pos = some (s, e) →
      pos ≤ s ∧ s < e ∧ e ≤ text.length ∧
      (c.specialTokensEncoder.lookup (slice text s e)).isSome = true) :
    ∃ (stable : List Nat) (comps : List (List Nat)) (full : List Nat)
      (ds dall unstable : Bytes),
      encodeUnstableNative c split findSpecial validUtf8 lastCharLen lastCharIsWs text =
        some (stable, comps) ∧
      encode c split findSpecial text = some full ∧
      decodeNative c stable = some ds ∧
      decodeNative c full = some dall ∧
      ds ++ unstable = dall ∧
      ∀ comp ∈ comps, ∃ dc : Bytes, decodeNative c comp = some dc ∧
        ds ++ unstable <+: ds ++ dc := by
  obtain ⟨toks, lastLen0, dall, hgo, hdecall, hsplit⟩ :=
    encodeNativeGo_spec c split findSpecial text hcover hinv hsplitall htext hsd hfs
      (text.length + 1) 0 [] 0 [] (by omega) rfl
      ⟨[], [], rfl, rfl, by intro t ht; simp at ht⟩
  obtain ⟨pre, suf, hps, hslen, hsufdec⟩ := hsplit
  have henc : encodeNative c split findSpecial text = some (toks, lastLen0) := hgo
  have hfull : encode c split findSpecial text = some toks := by
    unfold encode
    rw [henc]
    rfl
  by_cases hz : lastLen0 = 0
  · refine ⟨toks, [], toks, dall, dall, [], ?_, hfull, hdecall, hdecall, List.append_nil dall, ?_⟩
    · unfold encodeUnstableNative
      rw [henc]
      dsimp only
      rw [if_pos hz]
    · intro comp hcomp
      simp at hcomp
  · have hlen1 : 1 ≤ lastLen0 := by omega
    have hlen2 : lastLen0 ≤ toks.length := by
      rw [hps, List.length_append]
      omega
    have hdropsuf : toks.drop (toks.length - lastLen0) = suf := by
      rw [hps]
      rw [show (pre ++ suf).length - lastLen0 = pre.length by rw [List.length_append]; omega]
      exact List.drop_left pre suf
    obtain ⟨lastLen, hinc, hge, hle, hsuf2⟩ := increase_spec c toks lastLen0 hlen1 hlen2
      (by rw [hdropsuf]; exact hsufdec)
    obtain ⟨ub, hub_ord⟩ := ordDecode_some_of_forall hsuf2
    have hub_dec : decodeNative c (toks.drop (toks.length - lastLen)) = some ub :=
      decodeNative_of_ordDecode hub_ord
    have hub_lt : ∀ b ∈ ub, b < 256 :=
      fun b hb => ordDecode_bytes_lt c hinv2 hkeybytes hub_ord b hb
    have htd : toks.take (toks.length - lastLen) ++ toks.drop (toks.length - lastLen) = toks :=
      List.take_append_drop _ toks
    obtain ⟨ds, dy, hds, hdy, hdall_eq⟩ := decodeNative_append_inv
      (show decodeNative c (toks.take (toks.length - lastLen) ++
        toks.drop (toks.length - lastLen)) = some dall by rw [htd]; exact hdecall)
    have hdy_ub : ub = dy := by
      rw [hub_dec] at hdy
      injection hdy
    by_cases hube : ub = []
    · refine ⟨toks.take (toks.length - lastLen), [], toks, ds, dall, [],
        ?_, hfull, hds, hdecall, ?_, ?_⟩
      · unfold encodeUnstableNative
        rw [henc]
        dsimp only
        rw [if_neg hz, hinc]
        dsimp only
        rw [hub_dec]
        dsimp only
        rw [if_pos hube]
      · rw [List.append_nil, hdall_eq, ← hdy_ub, hube, List.append_nil]
      · intro comp hcomp
        simp at hcomp
    · obtain ⟨comps1, hc1, hc1p⟩ := directComps_spec c hinv hsorted ub
      obtain ⟨comps2, hc2, hc2p⟩ :=
        splitComps_spec c split validUtf8 hcover hinv hsorted hsplitall hkeybytes ub hub_lt
      obtain ⟨comps3, hc3, hc3p⟩ :=
        wsComps_spec c lastCharLen lastCharIsWs hcover hinv ub hub_lt
      refine ⟨toks.take (toks.length - lastLen), comps1 ++ comps2.flatten ++ comps3, toks,
        ds, dall, ub, ?_, hfull, hds, hdecall, ?_, ?_⟩
      · unfold encodeUnstableNative
        rw [henc]
        dsimp only
        rw [if_neg hz, hinc]
        dsimp only
        rw [hub_dec]
        dsimp only
        rw [if_neg hube, hc1]
        dsimp only
        rw [hc2]
        dsimp only
        rw [hc3]
      · rw [hdy_ub, hdall_eq]
      · intro comp hcomp
        have hcand : ∃ dc : Bytes, decodeNative c comp = some dc ∧ ub <+: dc := by
          rcases List.mem_append.mp hcomp with h12 | h3
          · rcases List.mem_append.mp h12 with h1 | h2
            · exact hc1p comp h1
            · obtain ⟨inner, hinner, hin⟩ := List.mem_flatten.mp h2
              exact hc2p inner hinner comp hin
          · exact hc3p comp h3
        obtain ⟨dc, hdc, hpre⟩ := hcand
        exact ⟨dc, hdc, (List.prefix_append_right_inj ds).mpr hpre⟩

theorem byteCodec_inv2 :
    ∀ (r : Nat) (k : Bytes), byteCodec.decoder.lookup r = some k →
      byteCodec.encoder.lookup k = some r := by
  intro r k h
  have hmem := lookup_mem h
  obtain ⟨kv, hkv, heq⟩ := List.mem_map.mp hmem
  have h1 : kv.2 = r := congrArg Prod.fst heq
  have h2 : kv.1 = k := congrArg Prod.snd heq
  have hkv2 : (k, r) ∈ byteTable := by
    rw [← h1, ← h2]
    exact hkv
  exact lookup_of_mem_nodup byteTable_keys_nodup hkv2

theorem byteTable_keybytes : ∀ kv ∈ byteTable, ∀ b ∈ kv.1, b < 256 := by
  intro kv hkv b hb
  obtain ⟨n, hn, heq⟩ := List.mem_map.mp hkv
  rw [← heq] at hb
  simp at hb
  rw [hb]
  exact List.mem_range.mp hn

theorem trivialSplit_flatten : ∀ s : Bytes,
    ((fun t => if t = [] then [] else [t]) s).flatten = s := by
  intro s
  by_cases h : s = []
  · rw [h]
    rfl
  · simp [h]

/-- Witness for C3: the byte-identity codec on the text "hi" with the
trivial single-piece splitter, no special matches, and a
never-valid-UTF-8 / no-last-character external model. -/
theorem C3_witness :
    ∃ (stable : List Nat) (comps : List (List Nat)) (full : List Nat)
      (ds dall unstable : Bytes),
      encodeUnstableNative byteCodec (fun t => if t = [] then [] else [t]) (fun _ _ => none)
        (fun _ => false) (fun _ => 0) (fun _ => false) [104, 105] = some (stable, comps) ∧
      encode byteCodec (fun t => if t = [] then [] else [t]) (fun _ _ => none) [104, 105] =
        some full ∧
      decodeNative byteCodec stable = some ds ∧
      decodeNative byteCodec full = some dall ∧
      ds ++ unstable = dall ∧
      ∀ comp ∈ comps, ∃ dc : Bytes, decodeNative byteCodec comp = some dc ∧
        ds ++ unstable <+: ds ++ dc :=
  C3_unstable_consistency byteCodec (fun t => if t = [] then [] else [t]) (fun _ _ => none)
    (fun _ => false) (fun _ => 0) (fun _ => false) [104, 105]
    byteTable_cover byteCodec_inv (fun x hx => absurd hx (List.not_mem_nil x))
    byteTable_keybytes byteCodec_inv2 trivialSplit_flatten (by decide) rfl
    (fun _ _ _ h => nomatch h)

end Tok
